import Mathlib

/-!
Shallow embedding of `src/hashy_step_table.py` (class `HashyStepTable`): a
double-hashing open-addressing table with lazy deletion (tombstones),
opportunistic compaction on lookup, and staged growth through a ladder of
capacities.

Modelling conventions:
* a slot of the backing `ArrayR` is `Slot.empty` (Python `None`),
  `Slot.tomb` (the `SENTINEL_DELETED` marker) or `Slot.occ k v` (a pair);
* keys are character lists, `ord` is `Char.toNat`;
* `count` is an `Int`, as Python ints may go negative via `count -= 1`;
* machine loops are modelled with explicit fuel; running out of fuel yields
  the distinguished error `Err.noFuel`, so `.ok` results correspond exactly
  to terminating Python executions, and a result of `.error .noFuel` for
  every fuel value corresponds to a non-terminating loop;
* Python's `IndexError` (list subscript out of range) is `Err.indexErr`,
  `KeyError` is `Err.keyErr`, `FullError` is `Err.fullErr`, and the
  `TypeError` from unpacking a non-pair is `Err.typeErr`;
* the load-factor test `len(self) > self.table_size * 2 / 3` (Python float
  division) is modelled as the exact rational comparison
  `3 * count > 2 * table_size`, which agrees with the float comparison for
  all magnitudes occurring here;
* Python truthiness tests on `step` and `first_empty_index` (`if not x`)
  treat both `None` and `0` as falsy; `falsy` models this on `Option Nat`.
-/

namespace HashyStepTable

abbrev Key := List Char

inductive Slot (V : Type) where
  | empty : Slot V
  | tomb : Slot V
  | occ (k : Key) (v : V) : Slot V
deriving DecidableEq

inductive Err where
  | keyErr : Err
  | fullErr : Err
  | indexErr : Err
  | typeErr : Err
  | noFuel : Err
deriving DecidableEq

structure State (V : Type) where
  sizes : List Nat
  size_index : Nat
  array : List (Slot V)
  count : Int
deriving DecidableEq

/-- `TABLE_SIZES`, the default capacity ladder. -/
def TABLE_SIZES : List Nat :=
  [5, 13, 29, 53, 97, 193, 389, 769, 1543, 3079, 6151, 12289, 24593, 49157,
   98317, 196613, 393241, 786433, 1572869]

/-- `__init__`: ladder position 0, array of `sizes[0]` empty slots. -/
def init_table {V : Type} (szs : List Nat) : State V :=
  { sizes := szs, size_index := 0,
    array := List.replicate (szs.headD 0) Slot.empty, count := 0 }

/-- A table built with the default ladder (`HashyStepTable()`). -/
def empty_default {V : Type} : State V := init_table TABLE_SIZES

def table_size {V : Type} (s : State V) : Nat := s.array.length

/-- Rolling loop of `hash`: `value = (ord(c) + a*value) % m`, `a = a*31 % (m-1)`. -/
def hashAux (m : Nat) : List Char → Nat → Nat → Nat
  | [], value, _ => value
  | c :: cs, value, a => hashAux m cs ((c.toNat + a * value) % m) (a * 31 % (m - 1))

/-- `hash`: primary hash of a key at capacity `m`, seeded `value=0`, `a=31415`. -/
def hash (m : Nat) (key : Key) : Nat := hashAux m key 0 31415

/-- Rolling loop of `hash2`, reduced mod `m-1` at each step. -/
def hash2Aux (m : Nat) : List Char → Nat → Nat → Nat
  | [], value, _ => value
  | c :: cs, value, a => hash2Aux m cs ((c.toNat + a * value) % (m - 1)) (a * 31 % (m - 1))

/-- `hash2`: step hash, final result incremented by 1. -/
def hash2 (m : Nat) (key : Key) : Nat := hash2Aux m key 0 31415 + 1

/-- Python truthiness of `step` / `first_empty_index`: `None` and `0` are falsy. -/
def falsy : Option Nat → Bool
  | none => true
  | some n => n == 0

/-- The loop of `_hashy_probe`, with explicit fuel, position, `step` and
`first_empty_index` accumulators.  Returns the resolved position together
with the (possibly compacted) array. -/
def probeAux {V : Type} (arr : List (Slot V)) (cnt : Int) (k : Key) (isIns : Bool) :
    Nat → Nat → Option Nat → Option Nat → Except Err (Nat × List (Slot V))
  | 0, _, _, _ => .error .noFuel
  | fuel + 1, pos, st, fei =>
    if cnt = (arr.length : Int) then
      -- `if self.is_full(): break`, then raise Full (insert) / KeyError (lookup)
      if isIns then .error .fullErr else .error .keyErr
    else
      match arr.get? pos with
      | none => .error .indexErr
      | some .empty =>
        if isIns then .ok (pos, arr) else .error .keyErr
      | some .tomb =>
        if isIns then .ok (pos, arr)
        else
          let fei' := if falsy fei then some pos else fei
          let st' := if falsy st then some (hash2 arr.length k) else st
          probeAux arr cnt k isIns fuel ((pos + st'.getD 0) % arr.length) st' fei'
      | some (.occ k2 v2) =>
        if k2 = k then
          if falsy fei then .ok (pos, arr)
          else
            match fei with
            | some t => .ok (t, (arr.set t (.occ k2 v2)).set pos (arr.getD t .empty))
            | none => .ok (pos, arr)
        else
          let st' := if falsy st then some (hash2 arr.length k) else st
          probeAux arr cnt k isIns fuel ((pos + st'.getD 0) % arr.length) st' fei

/-- `_hashy_probe`: start at `hash(key)`, `step = None`, `first_empty_index = None`. -/
def hashy_probe {V : Type} (fuel : Nat) (s : State V) (k : Key) (isIns : Bool) :
    Except Err (Nat × List (Slot V)) :=
  probeAux s.array s.count k isIns fuel (hash (table_size s) k) none none

/-- The reinsertion loop of `_rehash` (`for item in old_array: ... self[key] = value`),
parameterised by the insertion routine. -/
def reinsertWith {V : Type} (ins : State V → Key → V → Except Err (State V)) :
    State V → List (Slot V) → Except Err (State V)
  | s, [] => .ok s
  | s, .occ k v :: rest =>
    match ins s k v with
    | .ok s2 => reinsertWith ins s2 rest
    | .error e => .error e
  | s, .empty :: rest => reinsertWith ins s rest
  | s, .tomb :: rest => reinsertWith ins s rest

/-- `_rehash`: bump `size_index`; if it equals the ladder length return
unchanged (silent no-op, but with the incremented `size_index`); otherwise
index the ladder (IndexError once past the end) and reinsert every occupied
entry of the old array into a fresh larger array. -/
def rehashWith {V : Type} (ins : State V → Key → V → Except Err (State V))
    (s : State V) : Except Err (State V) :=
  let si := s.size_index + 1
  if si = s.sizes.length then .ok { s with size_index := si }
  else
    match s.sizes.get? si with
    | none => .error .indexErr
    | some m2 =>
      reinsertWith ins
        { sizes := s.sizes, size_index := si,
          array := List.replicate m2 Slot.empty, count := 0 } s.array

/-- Body of `__setitem__`: probe with insert intent, bump `count` only when
the resolved slot `is None` (the source tests `is None and != SENTINEL`,
which never holds for a tombstone), write the pair, then rehash when the
load factor is breached. -/
def setCore {V : Type} (ins : State V → Key → V → Except Err (State V))
    (pf : Nat) (s : State V) (k : Key) (v : V) : Except Err (State V) :=
  match hashy_probe pf s k true with
  | .error e => .error e
  | .ok (pos, arr) =>
    let inc : Int := match arr.get? pos with | some .empty => 1 | _ => 0
    let s1 : State V := { s with array := arr.set pos (.occ k v), count := s.count + inc }
    if 3 * s1.count > 2 * (table_size s1 : Int) then rehashWith ins s1 else .ok s1

/-- `__setitem__` with fuel; one unit of fuel per nested rehash level. -/
def setitem {V : Type} : Nat → State V → Key → V → Except Err (State V)
  | 0, _, _, _ => .error .noFuel
  | fuel + 1, s, k, v => setCore (setitem fuel) (fuel + 1) s k v

/-- `__getitem__`: probe with lookup intent, then read `array[position][1]`. -/
def getitem {V : Type} (fuel : Nat) (s : State V) (k : Key) :
    Except Err (V × State V) :=
  match hashy_probe fuel s k false with
  | .error e => .error e
  | .ok (pos, arr) =>
    match arr.get? pos with
    | some (.occ _ v) => .ok (v, { s with array := arr })
    | some _ => .error .typeErr
    | none => .error .indexErr

/-- `__delitem__`: probe with lookup intent, overwrite with the tombstone,
decrement `count`. -/
def delitem {V : Type} (fuel : Nat) (s : State V) (k : Key) : Except Err (State V) :=
  match hashy_probe fuel s k false with
  | .error e => .error e
  | .ok (pos, arr) => .ok { s with array := arr.set pos Slot.tomb, count := s.count - 1 }

/-- `__contains__`: `get` with `KeyError` converted to `false`. -/
def contains {V : Type} (fuel : Nat) (s : State V) (k : Key) :
    Except Err (Bool × State V) :=
  match getitem fuel s k with
  | .ok (_, s2) => .ok (true, s2)
  | .error .keyErr => .ok (false, s)
  | .error e => .error e

/-- `__str__` over the slot list: skips `None` slots, renders pairs, and
fails (Python `TypeError`, modeled as `none`) on the first tombstone it
tries to unpack. -/
def renderSlots {V : Type} (toStr : V → String) : List (Slot V) → Option String
  | [] => some ""
  | .empty :: rest => renderSlots toStr rest
  | .tomb :: _ => none
  | .occ k v :: rest =>
    (renderSlots toStr rest).map
      (fun r => "(" ++ String.mk k ++ "," ++ toStr v ++ ")\n" ++ r)

/-- `__str__` on a table state. -/
def str_fn {V : Type} (toStr : V → String) (s : State V) : Option String :=
  renderSlots toStr s.array

/-- One public operation of the table interface. -/
inductive Op (V : Type) where
  | set (k : Key) (v : V) : Op V
  | del (k : Key) : Op V
  | get (k : Key) : Op V
  | mem (k : Key) : Op V
deriving DecidableEq

/-- The operation list `set(k1, v1); …; set(kn, vn)`. -/
def set_ops {V : Type} (kvs : List (Key × V)) : List (Op V) :=
  kvs.map (fun p => Op.set p.1 p.2)

/-- Run one operation, keeping the resulting state (lookups may compact). -/
def run_op {V : Type} (fuel : Nat) (s : State V) : Op V → Except Err (State V)
  | .set k v => setitem fuel s k v
  | .del k => delitem fuel s k
  | .get k =>
    match getitem fuel s k with
    | .ok (_, s2) => .ok s2
    | .error e => .error e
  | .mem k =>
    match contains fuel s k with
    | .ok (_, s2) => .ok s2
    | .error e => .error e

/-- Run a sequence of operations from a state. -/
def run_ops {V : Type} (fuel : Nat) : State V → List (Op V) → Except Err (State V)
  | s, [] => .ok s
  | s, op :: rest =>
    match run_op fuel s op with
    | .ok s2 => run_ops fuel s2 rest
    | .error e => .error e

instance {e a : Type} [DecidableEq e] [DecidableEq a] : DecidableEq (Except e a)
  | .ok x, .ok y =>
    if h : x = y then .isTrue (by rw [h])
    else .isFalse (by intro hc; cases hc; exact h rfl)
  | .error x, .error y =>
    if h : x = y then .isTrue (by rw [h])
    else .isFalse (by intro hc; cases hc; exact h rfl)
  | .ok _, .error _ => .isFalse (by intro hc; cases hc)
  | .error _, .ok _ => .isFalse (by intro hc; cases hc)

/-- Number of `Occupied` slots of an array. -/
def occCount {V : Type} (arr : List (Slot V)) : Nat :=
  arr.countP (fun sl => match sl with | .occ _ _ => true | _ => false)

/-- The keys of the occupied slots, in array order. -/
def itemKeys {V : Type} (arr : List (Slot V)) : List Key :=
  arr.filterMap (fun sl => match sl with | .occ k _ => some k | _ => none)

/-- Slot holds a key different from `k`. -/
def occ_other {V : Type} (k : Key) : Slot V → Bool
  | .occ k2 _ => k2 != k
  | _ => false

/-- Slot does not terminate a probe for `k`: a tombstone, or another key. -/
def slot_not_key {V : Type} (k : Key) : Slot V → Bool
  | .tomb => true
  | .occ k2 _ => k2 != k
  | .empty => false

/-- The slot at index `i` (out-of-range reads as `empty`; probe positions
are always in range). -/
def slotAt {V : Type} (arr : List (Slot V)) (i : Nat) : Slot V :=
  arr.getD i Slot.empty

/-- The deterministic probe walk of key `k` at capacity `m`:
start at `hash`, advance by `hash2` steps, mod `m`. -/
def walkP (m : Nat) (k : Key) (i : Nat) : Nat :=
  (hash m k + i * hash2 m k) % m

/-- The state written by `__setitem__` when the resolved slot was empty:
the pair is stored and `count` is incremented. -/
def insertState {V : Type} (s : State V) (pos : Nat) (k : Key) (v : V) : State V :=
  { sizes := s.sizes, size_index := s.size_index,
    array := s.array.set pos (Slot.occ k v), count := s.count + 1 }

/-- The fresh state allocated by `_rehash` before reinsertion. -/
def freshState {V : Type} (szs : List Nat) (si m2 : Nat) : State V :=
  { sizes := szs, size_index := si,
    array := List.replicate m2 Slot.empty, count := 0 }

/-- `(k, v)` is bound at some occupied slot. -/
def hasBinding {V : Type} (s : State V) (k : Key) (v : V) : Prop :=
  ∃ q, s.array.get? q = some (.occ k v)

/-- `k` occurs in no occupied slot. -/
def keyAbsent {V : Type} (s : State V) (k : Key) : Prop :=
  ∀ q v, s.array.get? q ≠ some (Slot.occ k v)

/-- Well-formedness of a tombstone-free table state: `count` counts the
occupied slots, keys are unique, and every occupied key lies on its own
probe walk with all earlier walk slots occupied by other keys. -/
structure Inv {V : Type} (s : State V) : Prop where
  cnt : s.count = (occCount s.array : Int)
  tombfree : ∀ q, s.array.get? q ≠ some Slot.tomb
  uniq : ∀ q1 q2 k v1 v2, s.array.get? q1 = some (.occ k v1) →
    s.array.get? q2 = some (.occ k v2) → q1 = q2
  reach : ∀ q k v, s.array.get? q = some (.occ k v) →
    ∃ j, walkP (table_size s) k j = q ∧
      ∀ i < j, ∃ k2 v2,
        s.array.get? (walkP (table_size s) k i) = some (.occ k2 v2) ∧ k2 ≠ k

/- Concrete traces used to settle the claims.  Single-character keys hash
to `ord(c) % m` and step by `ord(c) % (m-1) + 1`. -/

/-- C1: ladder `[5, 5]`; four inserts exhaust the ladder (the fourth
triggers a real rehash whose nested rehash is the silent no-op). -/
def c1_ops : List (Op Nat) :=
  [.set ['d'] 1, .set ['e'] 2, .set ['a'] 3, .set ['b'] 4]

/-- State after `c1_ops`: `size_index` already past the last ladder entry. -/
def c1_state : State Nat :=
  { sizes := [5, 5], size_index := 2,
    array := [.occ ['d'] 1, .occ ['e'] 2, .occ ['a'] 3, .occ ['b'] 4, .empty],
    count := 4 }

/-- C2: insert, delete, re-insert the same key (tombstone reuse). -/
def c2_ops : List (Op Nat) := [.set ['d'] 1, .del ['d'], .set ['d'] 2]

def c2_state : State Nat :=
  { sizes := TABLE_SIZES, size_index := 0,
    array := [.occ ['d'] 2, .empty, .empty, .empty, .empty], count := 0 }

/-- C3: `'i'` hashes to 0 (occupied by `'d'`, steps to 2); after deleting
`'d'`, re-inserting `'i'` reuses the tombstone at 0 without noticing the
existing binding at 2. -/
def c3_ops : List (Op Nat) :=
  [.set ['d'] 1, .set ['i'] 2, .del ['d'], .set ['i'] 3]

def c3_state : State Nat :=
  { sizes := TABLE_SIZES, size_index := 0,
    array := [.occ ['i'] 3, .empty, .occ ['i'] 2, .empty, .empty], count := 1 }

/-- C4: single-entry ladder `[3]`: the third insert breaches the load factor
and the rehash is the silent no-op, leaving a genuinely full table. -/
def c4_ops : List (Op Nat) := [.set ['c'] 1, .set ['a'] 2, .set ['b'] 3]

def c4_state : State Nat :=
  { sizes := [3], size_index := 1,
    array := [.occ ['c'] 1, .occ ['a'] 2, .occ ['b'] 3], count := 3 }

/-- C5: each key is inserted, deleted, and re-inserted over its tombstone,
so `count` stays 0 while every slot becomes occupied. -/
def c5_ops : List (Op Nat) :=
  [.set ['d'] 1, .del ['d'], .set ['d'] 1,
   .set ['e'] 2, .del ['e'], .set ['e'] 2,
   .set ['a'] 3, .del ['a'], .set ['a'] 3,
   .set ['b'] 4, .del ['b'], .set ['b'] 4,
   .set ['c'] 5, .del ['c'], .set ['c'] 5]

def c5_state : State Nat :=
  { sizes := TABLE_SIZES, size_index := 0,
    array := [.occ ['d'] 1, .occ ['e'] 2, .occ ['a'] 3, .occ ['b'] 4, .occ ['c'] 5],
    count := 0 }

/-- C7: five distinct keys on the degenerate ladder `[5, 5]`. -/
def c7_ops : List (Op Nat) :=
  [.set ['f'] 1, .set ['g'] 2, .set ['h'] 3, .set ['i'] 4, .set ['j'] 5]

/-- C8: the walk of `'i'` is 0, 2, 4, …; after deleting `'d'` the first
tombstone seen by a lookup of `'i'` sits at index 0. -/
def c8_ops : List (Op Nat) := [.set ['d'] 1, .set ['i'] 2, .del ['d']]

def c8_state : State Nat :=
  { sizes := TABLE_SIZES, size_index := 0,
    array := [.tomb, .empty, .occ ['i'] 2, .empty, .empty], count := 1 }

/-- Witness state for the amended C8: the walk of `'i'` is 0, 2, 4 — another
key at 0, a tombstone at the nonzero index 2, and `'i'` occupied at 4. -/
def c8w_state : State Nat :=
  { sizes := TABLE_SIZES, size_index := 0,
    array := [.occ ['d'] 1, .empty, .tomb, .empty, .occ ['i'] 7], count := 2 }

/-- C10: one insert followed by one delete leaves a tombstone at index 0. -/
def c10_ops : List (Op Nat) := [.set ['d'] 1, .del ['d']]

def c10_state : State Nat :=
  { sizes := TABLE_SIZES, size_index := 0,
    array := [.tomb, .empty, .empty, .empty, .empty], count := 0 }

/-!  Theorems.  -/

/-- If `count` never matches the array length and every slot holds a key
other than `k`, a lookup probe never terminates: it runs out of any amount
of fuel (the Python loop runs forever). -/
theorem probeAux_all_occ_other_noFuel {V : Type} (arr : List (Slot V)) (cnt : Int)
    (k : Key) (hm : 0 < arr.length) (hcnt : cnt ≠ (arr.length : Int))
    (hall : ∀ sl ∈ arr, occ_other k sl = true) :
    ∀ fuel pos st fei, pos < arr.length →
      probeAux arr cnt k false fuel pos st fei = .error .noFuel := by
  intro fuel
  induction fuel with
  | zero => intro pos st fei _; rfl
  | succ f ih =>
    intro pos st fei hpos
    have hsl : arr.get? pos = some (arr.get ⟨pos, hpos⟩) := List.get?_eq_get hpos
    have hocc : occ_other k (arr.get ⟨pos, hpos⟩) = true :=
      hall _ (List.get?_mem hsl)
    obtain ⟨k2, v2, hkv⟩ : ∃ k2 v2, arr.get ⟨pos, hpos⟩ = Slot.occ k2 v2 := by
      cases hget : arr.get ⟨pos, hpos⟩ with
      | empty => rw [hget] at hocc; cases hocc
      | tomb => rw [hget] at hocc; cases hocc
      | occ k2 v2 => exact ⟨k2, v2, rfl⟩
    rw [hkv] at hsl hocc
    have hne : ¬ (k2 = k) := by simpa [occ_other, bne_iff_ne] using hocc
    simp only [probeAux, hsl, if_neg hcnt]
    rw [if_neg hne]
    exact ih _ _ _ (Nat.mod_lt _ hm)

/-- No-tombstone rendering always succeeds (`__str__` is total there). -/
theorem renderSlots_no_tomb {V : Type} (toStr : V → String) :
    ∀ l : List (Slot V), (∀ sl ∈ l, sl ≠ Slot.tomb) →
      (renderSlots toStr l).isSome = true := by
  intro l
  induction l with
  | nil => intro _; rfl
  | cons a rest ih =>
    intro h
    match a, h Slot.tomb with
    | .empty, _ => exact ih (fun sl hsl => h sl (List.mem_cons_of_mem _ hsl))
    | .tomb, ht => exact absurd rfl (h Slot.tomb (List.mem_cons_self _ _))
    | .occ k v, _ =>
      have hrest := ih (fun sl hsl => h sl (List.mem_cons_of_mem _ hsl))
      cases hr : renderSlots toStr rest with
      | none => rw [hr] at hrest; cases hrest
      | some r => simp [renderSlots, hr]

/-- The rolling primary-hash loop keeps its value below `m`. -/
theorem hashAux_lt (m : Nat) (hm : 0 < m) :
    ∀ (cs : List Char) (v a : Nat), v < m → hashAux m cs v a < m := by
  intro cs
  induction cs with
  | nil => intro v a hv; exact hv
  | cons c rest ih => intro v a _; exact ih _ _ (Nat.mod_lt _ hm)

/-- `hash` lands in `[0, m)`. -/
theorem hash_lt (m : Nat) (hm : 0 < m) (k : Key) : hash m k < m :=
  hashAux_lt m hm k 0 31415 hm

/-- The rolling step-hash loop keeps its value at most `m - 2`. -/
theorem hash2Aux_le (m : Nat) (hm : 2 ≤ m) :
    ∀ (cs : List Char) (v a : Nat), v ≤ m - 2 → hash2Aux m cs v a ≤ m - 2 := by
  intro cs
  induction cs with
  | nil => intro v a hv; exact hv
  | cons c rest ih =>
    intro v a _
    refine ih _ _ ?_
    have h1 : 0 < m - 1 := by omega
    have := Nat.mod_lt (c.toNat + a * v) h1
    omega

/-- `hash2` lands in `[1, m - 1]`. -/
theorem hash2_range (m : Nat) (hm : 2 ≤ m) (k : Key) :
    1 ≤ hash2 m k ∧ hash2 m k ≤ m - 1 := by
  have := hash2Aux_le m hm k 0 31415 (by omega)
  unfold hash2
  omega

/-- Every entry of the default ladder is at least 5. -/
theorem TABLE_SIZES_ge_five : ∀ m ∈ TABLE_SIZES, 5 ≤ m := by decide

/-- Claim C1: with `capacity_index` already past the last entry of the
ladder `[5, 5]` (state `c1_state`, reached by four inserts whose final
rehash request was the silent no-op), the claim says every further
load-factor breach is silently ignored.  Instead, the very next breaching
`set` raises `IndexError`: `_rehash` increments `size_index` beyond the
ladder length and indexes `TABLE_SIZES` out of range. -/
theorem claim_C1_frozen_capacity_breach_raises :
    run_ops 100 (init_table (V := Nat) [5, 5]) c1_ops = .ok c1_state ∧
    c1_state.size_index = 2 ∧ c1_state.sizes.length = 2 ∧
    table_size c1_state = 5 ∧ c1_state.count = 4 ∧
    setitem 100 c1_state ['c'] 5 = .error .indexErr := by
  exact ⟨rfl, rfl, rfl, rfl, rfl, rfl⟩

/-- Claim C2: after `set d; del d; set d` the re-insert resolves to the
tombstone slot, but `__setitem__` only increments `count` when the slot
`is None`, so `count` stays 0 while one slot is occupied — `len` no longer
equals the number of occupied slots. -/
theorem claim_C2_count_misses_tombstone_reuse :
    run_ops 100 (empty_default (V := Nat)) c2_ops = .ok c2_state ∧
    c2_state.count = 0 ∧ occCount c2_state.array = 1 := by
  exact ⟨rfl, rfl, rfl⟩

/-- Claim C3: insert-intent probing returns the first tombstone without
checking whether the key already lives later in its probe chain: after
`c3_ops` the key `'i'` occupies both slot 0 and slot 2. -/
theorem claim_C3_duplicate_key_bindings :
    run_ops 100 (empty_default (V := Nat)) c3_ops = .ok c3_state ∧
    c3_state.array.get? 0 = some (.occ ['i'] 3) ∧
    c3_state.array.get? 2 = some (.occ ['i'] 2) := by
  exact ⟨rfl, rfl, rfl⟩

/-- Claim C4: on the single-entry ladder `[3]` three inserts complete
without error and leave a genuinely full table (`count = table_size`), with
`'c'` present in an occupied slot; yet `get 'c'` raises `KeyError`, because
the fullness check aborts the probe walk under lookup intent too. -/
theorem claim_C4_full_table_lookup_raises :
    run_ops 100 (init_table (V := Nat) [3]) c4_ops = .ok c4_state ∧
    c4_state.array.get? 0 = some (.occ ['c'] 1) ∧
    c4_state.count = (table_size c4_state : Int) ∧
    getitem 100 c4_state ['c'] = .error .keyErr := by
  exact ⟨rfl, rfl, rfl, rfl⟩

/-- Claim C5: the reachable state `c5_state` (every slot occupied while
`count = 0`, thanks to the tombstone-reuse counting bug) defeats the
fullness check, so a lookup of the absent key `'f'` cycles through occupied
slots forever: it fails with fuel exhaustion for every amount of fuel. -/
theorem claim_C5_probe_loop_never_terminates :
    run_ops 100 (empty_default (V := Nat)) c5_ops = .ok c5_state ∧
    ∀ fuel, getitem fuel c5_state ['f'] = .error .noFuel := by
  refine ⟨rfl, ?_⟩
  intro fuel
  have h := probeAux_all_occ_other_noFuel c5_state.array c5_state.count ['f']
    (by decide) (by decide) (by decide)
    fuel (hash (table_size c5_state) ['f']) none none (by decide)
  unfold getitem hashy_probe
  rw [h]

/-- Claim C7: on the 2-entry ladder `[5, 5]`, inserting five distinct keys
does not succeed: the fifth insert breaches the load factor after the
ladder is exhausted and raises `IndexError` (so the promised `Full` on a
sixth insert is never reached). -/
theorem claim_C7_fifth_insert_raises_indexError :
    run_ops 100 (init_table (V := Nat) [5, 5]) c7_ops = .error .indexErr := by
  exact rfl

/-- Claim C8 counterexample: in `c8_state` the lookup walk of `'i'` passes
exactly one tombstone, at index 0, before finding `'i'` at index 2.  The
claim says the entry is swapped into index 0 and 0 is returned; instead the
probe returns position 2 and the state is unchanged — the tombstone is
still at index 0 and the entry still at index 2. -/
theorem cex_C8_zero_index_tombstone_not_compacted :
    run_ops 100 (empty_default (V := Nat)) c8_ops = .ok c8_state ∧
    c8_state.array.get? 0 = some Slot.tomb ∧
    c8_state.array.get? 2 = some (.occ ['i'] 2) ∧
    getitem 100 c8_state ['i'] = .ok (2, c8_state) := by
  exact ⟨rfl, rfl, rfl, rfl⟩

/-- Claim C9: for every capacity `m` of the default ladder and every
non-empty key, `hash` lands in `[0, m)` and `hash2` lands in `[1, m-1]`. -/
theorem claim_C9_hash_ranges :
    ∀ m ∈ TABLE_SIZES, ∀ k : Key, k ≠ [] →
      hash m k < m ∧ 1 ≤ hash2 m k ∧ hash2 m k ≤ m - 1 := by
  intro m hmem k _
  have h5 := TABLE_SIZES_ge_five m hmem
  obtain ⟨h1, h2⟩ := hash2_range m (by omega) k
  exact ⟨hash_lt m (by omega) k, h1, h2⟩

/-- Witness for C9 at `m = 5`, `key = "a"`. -/
theorem claim_C9_witness :
    (5 ∈ TABLE_SIZES ∧ (['a'] : Key) ≠ []) ∧
    (hash 5 ['a'] < 5 ∧ 1 ≤ hash2 5 ['a'] ∧ hash2 5 ['a'] ≤ 4) :=
  ⟨⟨by decide, by decide⟩, claim_C9_hash_ranges 5 (by decide) ['a'] (by decide)⟩

/-- Claim C10: `__str__` is total on tombstone-free states (it filters out
empty slots), but on the reachable state after `set d; del d` it hits the
tombstone sentinel and fails to unpack it as a pair (modelled as `none`). -/
theorem claim_C10_str_fails_on_tombstone :
    (∀ s : State Nat, (∀ sl ∈ s.array, sl ≠ Slot.tomb) →
      (str_fn toString s).isSome = true) ∧
    run_ops 100 (empty_default (V := Nat)) c10_ops = .ok c10_state ∧
    str_fn toString c10_state = none := by
  refine ⟨?_, rfl, rfl⟩
  intro s hs
  exact renderSlots_no_tomb toString s.array hs

/-- Witness for C10's universally quantified part, at the fresh table. -/
theorem claim_C10_witness :
    (str_fn toString (empty_default (V := Nat))).isSome = true :=
  claim_C10_str_fails_on_tombstone.1 empty_default (by decide)

/-- A slot that is not `empty` lies inside the array. -/
theorem slotAt_ne_empty_lt {V : Type} (arr : List (Slot V)) (i : Nat)
    (h : slotAt arr i ≠ Slot.empty) : i < arr.length := by
  by_contra hge
  refine h ?_
  have hnone : arr[i]? = none := List.getElem?_eq_none (Nat.le_of_not_lt hge)
  simp [slotAt, List.getD_eq_getElem?_getD, hnone]

/-- In-range `get?` agrees with `slotAt`. -/
theorem get?_slotAt {V : Type} (arr : List (Slot V)) (i : Nat) (h : i < arr.length) :
    arr.get? i = some (slotAt arr i) := by
  have h1 : arr[i]? = some arr[i] := List.getElem?_eq_getElem h
  rw [List.get?_eq_getElem?, h1]
  simp [slotAt, List.getD_eq_getElem?_getD, h1]

/-- `hash2` is never zero. -/
theorem hash2_ne_zero (m : Nat) (k : Key) : hash2 m k ≠ 0 :=
  Nat.succ_ne_zero _

/-- One probe advance moves the walk one step further. -/
theorem walkP_succ (m : Nat) (k : Key) (i : Nat) :
    (walkP m k i + hash2 m k) % m = walkP m k (i + 1) := by
  unfold walkP
  rw [Nat.mod_add_mod]
  congr 1
  ring

/-- `falsy` on `some` is the zero test. -/
theorem falsy_some (n : Nat) : falsy (some n) = (n == 0) := rfl

/-- `falsy` on `none` holds. -/
theorem falsy_none : falsy none = true := rfl

/-- Once a nonzero tombstone index `p` is recorded, walking over further
tombstones and other-key slots to the match swaps the found entry into `p`
and returns `p`. -/
theorem probeAux_post_swap {V : Type} (arr : List (Slot V)) (cnt : Int) (k : Key)
    (v : V) (hcnt : cnt ≠ (arr.length : Int)) (p : Nat) (hp : p ≠ 0) :
    ∀ d j0 fuel, d < fuel →
      (∀ i < d, slot_not_key k (slotAt arr (walkP arr.length k (j0 + i))) = true) →
      slotAt arr (walkP arr.length k (j0 + d)) = Slot.occ k v →
      probeAux arr cnt k false fuel (walkP arr.length k j0)
          (some (hash2 arr.length k)) (some p) =
        .ok (p, (arr.set p (Slot.occ k v)).set (walkP arr.length k (j0 + d))
              (arr.getD p Slot.empty)) := by
  have hfp : falsy (some p) = false := by
    rw [falsy_some, beq_eq_false_iff_ne]; exact hp
  have hfs : falsy (some (hash2 arr.length k)) = false := by
    rw [falsy_some, beq_eq_false_iff_ne]; exact hash2_ne_zero _ _
  intro d
  induction d with
  | zero =>
    intro j0 fuel hfuel hpre hocc
    match fuel, hfuel with
    | f + 1, _ =>
      rw [Nat.add_zero] at hocc
      have hlt : walkP arr.length k j0 < arr.length :=
        slotAt_ne_empty_lt _ _ (by rw [hocc]; intro hc; cases hc)
      have hget : arr.get? (walkP arr.length k j0) = some (Slot.occ k v) := by
        rw [get?_slotAt _ _ hlt, hocc]
      simp only [probeAux, if_neg hcnt, hget, if_pos rfl, hfp, Bool.false_eq_true,
        if_false, if_true, Nat.add_zero]
  | succ d ih =>
    intro j0 fuel hfuel hpre hocc
    match fuel, hfuel with
    | f + 1, hfuel =>
      have h0 := hpre 0 (Nat.succ_pos d)
      rw [Nat.add_zero] at h0
      have hlt : walkP arr.length k j0 < arr.length := by
        refine slotAt_ne_empty_lt _ _ ?_
        intro hc
        rw [hc] at h0
        cases h0
      have hget := get?_slotAt _ _ hlt
      have hnext : ∀ i < d,
          slot_not_key k (slotAt arr (walkP arr.length k (j0 + 1 + i))) = true := by
        intro i hi
        have := hpre (i + 1) (Nat.succ_lt_succ hi)
        rwa [show j0 + (i + 1) = j0 + 1 + i by ring] at this
      have hocc' : slotAt arr (walkP arr.length k (j0 + 1 + d)) = Slot.occ k v := by
        rwa [show j0 + (d + 1) = j0 + 1 + d by ring] at hocc
      have hrec := ih (j0 + 1) f (by omega) hnext hocc'
      rw [show j0 + 1 + d = j0 + (d + 1) by ring] at hrec
      cases hsl : slotAt arr (walkP arr.length k j0) with
      | empty => rw [hsl] at h0; cases h0
      | tomb =>
        rw [hsl] at hget
        simp only [probeAux, if_neg hcnt, hget, hfp, hfs, Bool.false_eq_true, if_false,
          Option.getD_some, walkP_succ]
        exact hrec
      | occ k2 v2 =>
        rw [hsl] at hget h0
        have hne : ¬ (k2 = k) := by
          simpa [slot_not_key, bne_iff_ne] using h0
        simp only [probeAux, if_neg hcnt, hget, if_neg hne, hfs, Bool.false_eq_true,
          if_false, Option.getD_some, walkP_succ]
        exact hrec

/-- A recorded tombstone index 0 is treated as unset: walking over
other-key slots to the match performs no compaction and returns the
original position. -/
theorem probeAux_zero_record_no_swap {V : Type} (arr : List (Slot V)) (cnt : Int)
    (k : Key) (v : V) (hcnt : cnt ≠ (arr.length : Int)) :
    ∀ d j0 fuel, d < fuel →
      (∀ i < d, occ_other k (slotAt arr (walkP arr.length k (j0 + i))) = true) →
      slotAt arr (walkP arr.length k (j0 + d)) = Slot.occ k v →
      probeAux arr cnt k false fuel (walkP arr.length k j0)
          (some (hash2 arr.length k)) (some 0) =
        .ok (walkP arr.length k (j0 + d), arr) := by
  have hfs : falsy (some (hash2 arr.length k)) = false := by
    rw [falsy_some, beq_eq_false_iff_ne]; exact hash2_ne_zero _ _
  intro d
  induction d with
  | zero =>
    intro j0 fuel hfuel hpre hocc
    match fuel, hfuel with
    | f + 1, _ =>
      rw [Nat.add_zero] at hocc
      have hlt : walkP arr.length k j0 < arr.length :=
        slotAt_ne_empty_lt _ _ (by rw [hocc]; intro hc; cases hc)
      have hget : arr.get? (walkP arr.length k j0) = some (Slot.occ k v) := by
        rw [get?_slotAt _ _ hlt, hocc]
      simp only [probeAux, if_neg hcnt, hget, if_pos rfl, falsy_some, beq_self_eq_true,
        if_true, Nat.add_zero]
  | succ d ih =>
    intro j0 fuel hfuel hpre hocc
    match fuel, hfuel with
    | f + 1, hfuel =>
      have h0 := hpre 0 (Nat.succ_pos d)
      rw [Nat.add_zero] at h0
      obtain ⟨k2, v2, hkv⟩ : ∃ k2 v2,
          slotAt arr (walkP arr.length k j0) = Slot.occ k2 v2 := by
        cases hsl : slotAt arr (walkP arr.length k j0) with
        | empty => rw [hsl] at h0; cases h0
        | tomb => rw [hsl] at h0; cases h0
        | occ k2 v2 => exact ⟨k2, v2, rfl⟩
      have hlt : walkP arr.length k j0 < arr.length :=
        slotAt_ne_empty_lt _ _ (by rw [hkv]; intro hc; cases hc)
      have hget : arr.get? (walkP arr.length k j0) = some (Slot.occ k2 v2) := by
        rw [get?_slotAt _ _ hlt, hkv]
      have hne : ¬ (k2 = k) := by
        rw [hkv] at h0
        simpa [occ_other, bne_iff_ne] using h0
      have hnext : ∀ i < d,
          occ_other k (slotAt arr (walkP arr.length k (j0 + 1 + i))) = true := by
        intro i hi
        have := hpre (i + 1) (Nat.succ_lt_succ hi)
        rwa [show j0 + (i + 1) = j0 + 1 + i by ring] at this
      have hocc' : slotAt arr (walkP arr.length k (j0 + 1 + d)) = Slot.occ k v := by
        rwa [show j0 + (d + 1) = j0 + 1 + d by ring] at hocc
      have hrec := ih (j0 + 1) f (by omega) hnext hocc'
      rw [show j0 + 1 + d = j0 + (d + 1) by ring] at hrec
      simp only [probeAux, if_neg hcnt, hget, if_neg hne, hfs, Bool.false_eq_true,
        if_false, Option.getD_some, walkP_succ]
      exact hrec

/-- Walking from the start over other-key slots to a first tombstone at a
nonzero index records it; the entry found later is swapped into it. -/
theorem probeAux_first_tomb_nonzero {V : Type} (arr : List (Slot V)) (cnt : Int)
    (k : Key) (v : V) (hcnt : cnt ≠ (arr.length : Int)) (e : Nat) (he : 0 < e) :
    ∀ t j0 st fuel, (st = none ∨ st = some (hash2 arr.length k)) → t + e < fuel →
      (∀ i < t, occ_other k (slotAt arr (walkP arr.length k (j0 + i))) = true) →
      slotAt arr (walkP arr.length k (j0 + t)) = Slot.tomb →
      walkP arr.length k (j0 + t) ≠ 0 →
      (∀ i, 0 < i → i < e →
        slot_not_key k (slotAt arr (walkP arr.length k (j0 + t + i))) = true) →
      slotAt arr (walkP arr.length k (j0 + t + e)) = Slot.occ k v →
      probeAux arr cnt k false fuel (walkP arr.length k j0) st none =
        .ok (walkP arr.length k (j0 + t),
          (arr.set (walkP arr.length k (j0 + t)) (Slot.occ k v)).set
            (walkP arr.length k (j0 + t + e))
            (arr.getD (walkP arr.length k (j0 + t)) Slot.empty)) := by
  have hfs : falsy (some (hash2 arr.length k)) = false := by
    rw [falsy_some, beq_eq_false_iff_ne]; exact hash2_ne_zero _ _
  intro t
  induction t with
  | zero =>
    intro j0 st fuel hst hfuel hlead htomb hz hmid hocc
    rw [Nat.add_zero] at htomb hz
    simp only [Nat.add_zero] at hmid hocc ⊢
    match fuel, hfuel with
    | f + 1, hfuel =>
      have hlt : walkP arr.length k j0 < arr.length :=
        slotAt_ne_empty_lt _ _ (by rw [htomb]; intro hc; cases hc)
      have hget : arr.get? (walkP arr.length k j0) = some Slot.tomb := by
        rw [get?_slotAt _ _ hlt, htomb]
      have hstep : (if falsy st then some (hash2 arr.length k) else st) =
          some (hash2 arr.length k) := by
        rcases hst with h | h <;> rw [h] <;> simp [falsy_none, hfs]
      have hrec := probeAux_post_swap arr cnt k v hcnt (walkP arr.length k j0) hz
        (e - 1) (j0 + 1) f (by omega)
        (by
          intro i hi
          have := hmid (i + 1) (Nat.succ_pos i) (by omega)
          rwa [show j0 + (i + 1) = j0 + 1 + i by ring] at this)
        (by rwa [show j0 + 1 + (e - 1) = j0 + e by omega])
      rw [show j0 + 1 + (e - 1) = j0 + e by omega] at hrec
      simp only [probeAux, if_neg hcnt, hget, Bool.false_eq_true, if_false, falsy_none,
        if_true, hstep, Option.getD_some, walkP_succ]
      exact hrec
  | succ t ih =>
    intro j0 st fuel hst hfuel hlead htomb hz hmid hocc
    match fuel, hfuel with
    | f + 1, hfuel =>
      have h0 := hlead 0 (Nat.succ_pos t)
      rw [Nat.add_zero] at h0
      obtain ⟨k2, v2, hkv⟩ : ∃ k2 v2,
          slotAt arr (walkP arr.length k j0) = Slot.occ k2 v2 := by
        cases hsl : slotAt arr (walkP arr.length k j0) with
        | empty => rw [hsl] at h0; cases h0
        | tomb => rw [hsl] at h0; cases h0
        | occ k2 v2 => exact ⟨k2, v2, rfl⟩
      have hlt : walkP arr.length k j0 < arr.length :=
        slotAt_ne_empty_lt _ _ (by rw [hkv]; intro hc; cases hc)
      have hget : arr.get? (walkP arr.length k j0) = some (Slot.occ k2 v2) := by
        rw [get?_slotAt _ _ hlt, hkv]
      have hne : ¬ (k2 = k) := by
        rw [hkv] at h0
        simpa [occ_other, bne_iff_ne] using h0
      have hstep : (if falsy st then some (hash2 arr.length k) else st) =
          some (hash2 arr.length k) := by
        rcases hst with h | h <;> rw [h] <;> simp [falsy, hfs]
      have hrec := ih (j0 + 1) (some (hash2 arr.length k)) f (Or.inr rfl) (by omega)
        (by
          intro i hi
          have := hlead (i + 1) (Nat.succ_lt_succ hi)
          rwa [show j0 + (i + 1) = j0 + 1 + i by ring] at this)
        (by rwa [show j0 + 1 + t = j0 + (t + 1) by ring])
        (by rwa [show j0 + 1 + t = j0 + (t + 1) by ring])
        (by
          intro i hi1 hi2
          have := hmid i hi1 hi2
          rwa [show j0 + (t + 1) + i = j0 + 1 + t + i by ring] at this)
        (by rwa [show j0 + 1 + t + e = j0 + (t + 1) + e by ring])
      rw [show j0 + 1 + t = j0 + (t + 1) by ring] at hrec
      simp only [probeAux, if_neg hcnt, hget, if_neg hne, Bool.false_eq_true, if_false,
        hstep, Option.getD_some, walkP_succ]
      exact hrec

/-- Walking from the start over other-key slots to a first tombstone at
index 0 records `0`, which later reads as unset: no compaction happens and
the entry's original position is returned with the array unchanged. -/
theorem probeAux_first_tomb_zero {V : Type} (arr : List (Slot V)) (cnt : Int)
    (k : Key) (v : V) (hcnt : cnt ≠ (arr.length : Int)) (e : Nat) (he : 0 < e) :
    ∀ t j0 st fuel, (st = none ∨ st = some (hash2 arr.length k)) → t + e < fuel →
      (∀ i < t, occ_other k (slotAt arr (walkP arr.length k (j0 + i))) = true) →
      slotAt arr (walkP arr.length k (j0 + t)) = Slot.tomb →
      walkP arr.length k (j0 + t) = 0 →
      (∀ i, 0 < i → i < e →
        occ_other k (slotAt arr (walkP arr.length k (j0 + t + i))) = true) →
      slotAt arr (walkP arr.length k (j0 + t + e)) = Slot.occ k v →
      probeAux arr cnt k false fuel (walkP arr.length k j0) st none =
        .ok (walkP arr.length k (j0 + t + e), arr) := by
  have hfs : falsy (some (hash2 arr.length k)) = false := by
    rw [falsy_some, beq_eq_false_iff_ne]; exact hash2_ne_zero _ _
  intro t
  induction t with
  | zero =>
    intro j0 st fuel hst hfuel hlead htomb hz hmid hocc
    rw [Nat.add_zero] at htomb hz
    simp only [Nat.add_zero] at hmid hocc ⊢
    match fuel, hfuel with
    | f + 1, hfuel =>
      have hlt : walkP arr.length k j0 < arr.length :=
        slotAt_ne_empty_lt _ _ (by rw [htomb]; intro hc; cases hc)
      have hget : arr.get? (walkP arr.length k j0) = some Slot.tomb := by
        rw [get?_slotAt _ _ hlt, htomb]
      have hstep : (if falsy st then some (hash2 arr.length k) else st) =
          some (hash2 arr.length k) := by
        rcases hst with h | h <;> rw [h] <;> simp [falsy_none, hfs]
      have hrec := probeAux_zero_record_no_swap arr cnt k v hcnt
        (e - 1) (j0 + 1) f (by omega)
        (by
          intro i hi
          have := hmid (i + 1) (Nat.succ_pos i) (by omega)
          rwa [show j0 + (i + 1) = j0 + 1 + i by ring] at this)
        (by rwa [show j0 + 1 + (e - 1) = j0 + e by omega])
      rw [show j0 + 1 + (e - 1) = j0 + e by omega] at hrec
      simp only [probeAux, if_neg hcnt, hget, Bool.false_eq_true, if_false, falsy_none,
        if_true, hstep, Option.getD_some, walkP_succ]
      rw [hz]
      exact hrec
  | succ t ih =>
    intro j0 st fuel hst hfuel hlead htomb hz hmid hocc
    match fuel, hfuel with
    | f + 1, hfuel =>
      have h0 := hlead 0 (Nat.succ_pos t)
      rw [Nat.add_zero] at h0
      obtain ⟨k2, v2, hkv⟩ : ∃ k2 v2,
          slotAt arr (walkP arr.length k j0) = Slot.occ k2 v2 := by
        cases hsl : slotAt arr (walkP arr.length k j0) with
        | empty => rw [hsl] at h0; cases h0
        | tomb => rw [hsl] at h0; cases h0
        | occ k2 v2 => exact ⟨k2, v2, rfl⟩
      have hlt : walkP arr.length k j0 < arr.length :=
        slotAt_ne_empty_lt _ _ (by rw [hkv]; intro hc; cases hc)
      have hget : arr.get? (walkP arr.length k j0) = some (Slot.occ k2 v2) := by
        rw [get?_slotAt _ _ hlt, hkv]
      have hne : ¬ (k2 = k) := by
        rw [hkv] at h0
        simpa [occ_other, bne_iff_ne] using h0
      have hstep : (if falsy st then some (hash2 arr.length k) else st) =
          some (hash2 arr.length k) := by
        rcases hst with h | h <;> rw [h] <;> simp [falsy, hfs]
      have hrec := ih (j0 + 1) (some (hash2 arr.length k)) f (Or.inr rfl) (by omega)
        (by
          intro i hi
          have := hlead (i + 1) (Nat.succ_lt_succ hi)
          rwa [show j0 + (i + 1) = j0 + 1 + i by ring] at this)
        (by rwa [show j0 + 1 + t = j0 + (t + 1) by ring])
        (by rwa [show j0 + 1 + t = j0 + (t + 1) by ring])
        (by
          intro i hi1 hi2
          have := hmid i hi1 hi2
          rwa [show j0 + (t + 1) + i = j0 + 1 + t + i by ring] at this)
        (by rwa [show j0 + 1 + t + e = j0 + (t + 1) + e by ring])
      rw [show j0 + 1 + t = j0 + (t + 1) by ring] at hrec
      simp only [probeAux, if_neg hcnt, hget, if_neg hne, Bool.false_eq_true, if_false,
        hstep, Option.getD_some, walkP_succ]
      exact hrec

/-- Claim C8 (amended): on a lookup-intent probe walk whose first tombstone
appears at walk step `t` and whose matching occupied slot appears at walk
step `t + e`: if the tombstone's index is nonzero the entry is swapped into
it and that index is returned; if the tombstone sits at index 0 (and it is
the only tombstone of the walk) no compaction happens and the entry's
original position is returned with the array unchanged. -/
theorem claim_C8_amended_compaction {V : Type} (s : State V) (k : Key) (v : V)
    (t e : Nat) (he : 0 < e) (hcnt : s.count ≠ (table_size s : Int))
    (hlead : ∀ i < t, occ_other k (slotAt s.array (walkP (table_size s) k i)) = true)
    (htomb : slotAt s.array (walkP (table_size s) k t) = Slot.tomb)
    (hmatch : slotAt s.array (walkP (table_size s) k (t + e)) = Slot.occ k v) :
    (walkP (table_size s) k t ≠ 0 →
      (∀ i, 0 < i → i < e →
        slot_not_key k (slotAt s.array (walkP (table_size s) k (t + i))) = true) →
      ∀ fuel, t + e < fuel →
        hashy_probe fuel s k false =
          .ok (walkP (table_size s) k t,
            (s.array.set (walkP (table_size s) k t) (Slot.occ k v)).set
              (walkP (table_size s) k (t + e))
              (s.array.getD (walkP (table_size s) k t) Slot.empty))) ∧
    (walkP (table_size s) k t = 0 →
      (∀ i, 0 < i → i < e →
        occ_other k (slotAt s.array (walkP (table_size s) k (t + i))) = true) →
      ∀ fuel, t + e < fuel →
        hashy_probe fuel s k false = .ok (walkP (table_size s) k (t + e), s.array)) := by
  have hm : 0 < table_size s := by
    have := slotAt_ne_empty_lt s.array _ (by rw [htomb]; intro hc; cases hc)
    unfold table_size
    omega
  have hstart : hash (table_size s) k = walkP (table_size s) k 0 := by
    unfold walkP
    rw [Nat.zero_mul, Nat.add_zero, Nat.mod_eq_of_lt (hash_lt _ hm k)]
  constructor
  · intro hz hmid fuel hfuel
    unfold hashy_probe
    rw [hstart]
    have := probeAux_first_tomb_nonzero s.array s.count k v hcnt e he t 0 none fuel
      (Or.inl rfl) hfuel
      (by simpa using hlead) (by simpa using htomb) (by simpa using hz)
      (by simpa using hmid) (by simpa using hmatch)
    simpa using this
  · intro hz hmid fuel hfuel
    unfold hashy_probe
    rw [hstart]
    have := probeAux_first_tomb_zero s.array s.count k v hcnt e he t 0 none fuel
      (Or.inl rfl) hfuel
      (by simpa using hlead) (by simpa using htomb) (by simpa using hz)
      (by simpa using hmid) (by simpa using hmatch)
    simpa using this

/-- Witness for the amended C8 at `c8w_state`: the walk of `'i'` is
0 (other key), 2 (tombstone, nonzero), 4 (match) — the entry is swapped
into index 2 and 2 is returned. -/
theorem claim_C8_amended_witness :
    hashy_probe 10 c8w_state ['i'] false =
      .ok (2, [.occ ['d'] 1, .empty, .occ ['i'] 7, .empty, .tomb]) :=
  (claim_C8_amended_compaction c8w_state ['i'] 7 1 1 (by decide) (by decide)
    (by decide) (by decide) (by decide)).1 (by decide)
    (by intro i h1 h2; omega) 10 (by decide)

/-!  Counting and array lemmas for the round-trip development (C6).  -/

theorem occCount_cons_occ {V : Type} (k : Key) (v : V) (rest : List (Slot V)) :
    occCount (Slot.occ k v :: rest) = occCount rest + 1 := by
  simp [occCount, List.countP_cons]

theorem occCount_cons_empty {V : Type} (rest : List (Slot V)) :
    occCount (Slot.empty :: rest) = occCount rest := by
  simp [occCount, List.countP_cons]

theorem occCount_cons_tomb {V : Type} (rest : List (Slot V)) :
    occCount (Slot.tomb :: rest) = occCount rest := by
  simp [occCount, List.countP_cons]

theorem occCount_replicate {V : Type} (n : Nat) :
    occCount (List.replicate n (Slot.empty : Slot V)) = 0 := by
  induction n with
  | zero => rfl
  | succ n ih => rw [List.replicate_succ, occCount_cons_empty, ih]

theorem get?_replicate_lt {α : Type} (a : α) :
    ∀ n i, i < n → (List.replicate n a).get? i = some a := by
  intro n
  induction n with
  | zero => intro i hi; omega
  | succ n ih =>
    intro i hi
    cases i with
    | zero => rfl
    | succ i => rw [List.replicate_succ, List.get?_cons_succ]; exact ih i (by omega)

/-- Overwriting an `empty` slot with an occupied one bumps the occupied
count by one. -/
theorem occCount_set_occ_of_empty {V : Type} (k : Key) (v : V) :
    ∀ (arr : List (Slot V)) (q : Nat), arr.get? q = some Slot.empty →
      occCount (arr.set q (Slot.occ k v)) = occCount arr + 1 := by
  intro arr
  induction arr with
  | nil => intro q h; cases h
  | cons a rest ih =>
    intro q h
    cases q with
    | zero =>
      rw [List.get?_cons_zero] at h
      cases h
      rw [List.set_cons_zero, occCount_cons_occ, occCount_cons_empty]
    | succ q =>
      rw [List.get?_cons_succ] at h
      rw [List.set_cons_succ]
      cases a with
      | empty => rw [occCount_cons_empty, occCount_cons_empty, ih q h]
      | tomb => rw [occCount_cons_tomb, occCount_cons_tomb, ih q h]
      | occ k2 v2 => rw [occCount_cons_occ, occCount_cons_occ, ih q h]

/-- A tombstone-free array with fewer occupied slots than its length has an
empty slot. -/
theorem exists_empty_slot {V : Type} :
    ∀ arr : List (Slot V), (∀ q, arr.get? q ≠ some Slot.tomb) →
      occCount arr < arr.length → ∃ epos, arr.get? epos = some Slot.empty := by
  intro arr
  induction arr with
  | nil => intro _ h; simp [occCount] at h
  | cons a rest ih =>
    intro htf hlt
    cases a with
    | empty => exact ⟨0, rfl⟩
    | tomb => exact absurd rfl (htf 0)
    | occ k v =>
      rw [occCount_cons_occ] at hlt
      obtain ⟨epos, he⟩ := ih (fun q => htf (q + 1)) (by simpa using hlt)
      exact ⟨epos + 1, by rwa [List.get?_cons_succ]⟩

/-- Occupied membership in the key list of an array. -/
theorem mem_itemKeys {V : Type} (arr : List (Slot V)) (k : Key) :
    k ∈ itemKeys arr ↔ ∃ q v, arr.get? q = some (Slot.occ k v) := by
  unfold itemKeys
  rw [List.mem_filterMap]
  constructor
  · rintro ⟨sl, hmem, hf⟩
    match sl, hf with
    | .occ k2 v, hf =>
      cases hf
      obtain ⟨q, hq⟩ := List.mem_iff_get?.mp hmem
      exact ⟨q, v, hq⟩
  · rintro ⟨q, v, hq⟩
    exact ⟨Slot.occ k v, List.mem_iff_get?.mpr ⟨q, hq⟩, rfl⟩

/-- Key uniqueness across occupied slots makes the key list duplicate-free. -/
theorem nodup_itemKeys {V : Type} :
    ∀ arr : List (Slot V),
      (∀ q1 q2 k v1 v2, arr.get? q1 = some (Slot.occ k v1) →
        arr.get? q2 = some (Slot.occ k v2) → q1 = q2) →
      (itemKeys arr).Nodup := by
  intro arr
  induction arr with
  | nil => intro _; exact List.nodup_nil
  | cons a rest ih =>
    intro hu
    have hurest : ∀ q1 q2 k v1 v2, rest.get? q1 = some (Slot.occ k v1) →
        rest.get? q2 = some (Slot.occ k v2) → q1 = q2 := by
      intro q1 q2 k v1 v2 h1 h2
      have := hu (q1 + 1) (q2 + 1) k v1 v2
        (by rwa [List.get?_cons_succ]) (by rwa [List.get?_cons_succ])
      omega
    cases a with
    | empty => exact ih hurest
    | tomb => exact ih hurest
    | occ k0 v0 =>
      have hhead : itemKeys (Slot.occ k0 v0 :: rest) = k0 :: itemKeys rest := rfl
      rw [hhead, List.nodup_cons]
      refine ⟨?_, ih hurest⟩
      intro hmem
      obtain ⟨q, v, hq⟩ := (mem_itemKeys rest k0).mp hmem
      have := hu 0 (q + 1) k0 v0 v rfl (by rwa [List.get?_cons_succ])
      omega

/-- Bindings are exactly occupied-slot membership. -/
theorem hasBinding_iff_mem {V : Type} (s : State V) (k : Key) (v : V) :
    hasBinding s k v ↔ Slot.occ k v ∈ s.array := by
  unfold hasBinding
  rw [List.mem_iff_get?]

/-- At a prime capacity the step hash is coprime to the capacity. -/
theorem hash2_coprime (m : Nat) (hp : m.Prime) (k : Key) :
    Nat.Coprime (hash2 m k) m := by
  obtain ⟨h1, hle⟩ := hash2_range m hp.two_le k
  have hm2 := hp.two_le
  refine Nat.Coprime.symm ((Nat.Prime.coprime_iff_not_dvd hp).mpr ?_)
  intro hdvd
  have := Nat.le_of_dvd (by omega) hdvd
  omega

/-- With a step coprime to the capacity, the probe walk reaches every index
below the capacity. -/
theorem walk_hits (m : Nat) (hm : 2 ≤ m) (k : Key)
    (hcop : Nat.Coprime (hash2 m k) m) (e : Nat) (he : e < m) :
    ∃ i, walkP m k i = e := by
  haveI : NeZero m := ⟨by omega⟩
  set h := hash m k with hh
  set s := hash2 m k with hs
  set u : (ZMod m)ˣ := ZMod.unitOfCoprime s hcop with hu
  set iz : ZMod m := (((e : ZMod m) - (h : ZMod m)) * ((u⁻¹ : (ZMod m)ˣ) : ZMod m))
    with hiz
  refine ⟨iz.val, ?_⟩
  have hzcast : ((h + iz.val * s : Nat) : ZMod m) = (e : ZMod m) := by
    push_cast
    rw [ZMod.natCast_rightInverse iz]
    have hus : ((u : (ZMod m)ˣ) : ZMod m) = (s : ZMod m) := ZMod.coe_unitOfCoprime s hcop
    rw [hiz, mul_assoc, ← hus]
    rw [← Units.val_mul, inv_mul_cancel, Units.val_one, mul_one]
    ring
  unfold walkP
  rw [← hh, ← hs]
  calc (h + iz.val * s) % m = ((h + iz.val * s : Nat) : ZMod m).val := by
        rw [ZMod.val_natCast]
    _ = ((e : Nat) : ZMod m).val := by rw [hzcast]
    _ = e % m := ZMod.val_natCast e
    _ = e := Nat.mod_eq_of_lt he

theorem lt_of_get?_some {V : Type} {arr : List (Slot V)} {q : Nat} {sl : Slot V}
    (h : arr.get? q = some sl) : q < arr.length := by
  by_contra hge
  rw [List.get?_eq_none.mpr (Nat.le_of_not_lt hge)] at h
  cases h

theorem slotAt_of_get? {V : Type} {arr : List (Slot V)} {q : Nat} {sl : Slot V}
    (h : arr.get? q = some sl) : slotAt arr q = sl := by
  have := get?_slotAt arr q (lt_of_get?_some h)
  rw [this] at h
  exact Option.some_inj.mp h

theorem walkP_lt (m : Nat) (hm : 0 < m) (k : Key) (i : Nat) : walkP m k i < m :=
  Nat.mod_lt _ hm

theorem hash_eq_walkP_zero (m : Nat) (hm : 0 < m) (k : Key) :
    hash m k = walkP m k 0 := by
  unfold walkP
  rw [Nat.zero_mul, Nat.add_zero, Nat.mod_eq_of_lt (hash_lt m hm k)]

/-- Tombstone-free insert probe: walking over other-key slots, the probe
stops at the first empty or matching slot, leaving the array unchanged. -/
theorem probe_insert_reach {V : Type} (arr : List (Slot V)) (cnt : Int) (k : Key)
    (hm : 0 < arr.length) (hcnt : cnt ≠ (arr.length : Int)) :
    ∀ d j0 st fuel, (st = none ∨ st = some (hash2 arr.length k)) → d < fuel →
      (∀ i < d, occ_other k (slotAt arr (walkP arr.length k (j0 + i))) = true) →
      (slotAt arr (walkP arr.length k (j0 + d)) = Slot.empty ∨
        ∃ v, slotAt arr (walkP arr.length k (j0 + d)) = Slot.occ k v) →
      probeAux arr cnt k true fuel (walkP arr.length k j0) st none =
        .ok (walkP arr.length k (j0 + d), arr) := by
  have hfs : falsy (some (hash2 arr.length k)) = false := by
    rw [falsy_some, beq_eq_false_iff_ne]; exact hash2_ne_zero _ _
  intro d
  induction d with
  | zero =>
    intro j0 st fuel hst hfuel hlead htarget
    simp only [Nat.add_zero] at htarget ⊢
    match fuel, hfuel with
    | f + 1, _ =>
      have hwlt := walkP_lt arr.length hm k j0
      rcases htarget with hemp | ⟨v, hocc⟩
      · have hget : arr.get? (walkP arr.length k j0) = some Slot.empty := by
          rw [get?_slotAt arr _ hwlt, hemp]
        simp only [probeAux, if_neg hcnt, hget, if_true]
      · have hget : arr.get? (walkP arr.length k j0) = some (Slot.occ k v) := by
          rw [get?_slotAt arr _ hwlt, hocc]
        simp only [probeAux, if_neg hcnt, hget, if_pos rfl, falsy_none, if_true]
  | succ d ih =>
    intro j0 st fuel hst hfuel hlead htarget
    match fuel, hfuel with
    | f + 1, hfuel =>
      have h0 := hlead 0 (Nat.succ_pos d)
      rw [Nat.add_zero] at h0
      obtain ⟨k2, v2, hkv⟩ : ∃ k2 v2,
          slotAt arr (walkP arr.length k j0) = Slot.occ k2 v2 := by
        cases hsl : slotAt arr (walkP arr.length k j0) with
        | empty => rw [hsl] at h0; cases h0
        | tomb => rw [hsl] at h0; cases h0
        | occ k2 v2 => exact ⟨k2, v2, rfl⟩
      have hget : arr.get? (walkP arr.length k j0) = some (Slot.occ k2 v2) := by
        rw [get?_slotAt arr _ (walkP_lt arr.length hm k j0), hkv]
      have hne : ¬ (k2 = k) := by
        rw [hkv] at h0
        simpa [occ_other, bne_iff_ne] using h0
      have hstep : (if falsy st then some (hash2 arr.length k) else st) =
          some (hash2 arr.length k) := by
        rcases hst with h | h <;> rw [h] <;> simp [falsy_none, hfs]
      have hrec := ih (j0 + 1) (some (hash2 arr.length k)) f (Or.inr rfl) (by omega)
        (by
          intro i hi
          have := hlead (i + 1) (Nat.succ_lt_succ hi)
          rwa [show j0 + (i + 1) = j0 + 1 + i by ring] at this)
        (by
          rcases htarget with hemp | ⟨v, hocc⟩
          · exact Or.inl (by rwa [show j0 + 1 + d = j0 + (d + 1) by ring])
          · exact Or.inr ⟨v, by rwa [show j0 + 1 + d = j0 + (d + 1) by ring]⟩)
      rw [show j0 + 1 + d = j0 + (d + 1) by ring] at hrec
      simp only [probeAux, if_neg hcnt, hget, if_neg hne, hstep, Option.getD_some,
        walkP_succ]
      exact hrec

/-- Tombstone-free lookup probe: walking over other-key slots to the
matching occupied slot returns its position with the array unchanged. -/
theorem probe_lookup_reach {V : Type} (arr : List (Slot V)) (cnt : Int) (k : Key)
    (v : V) (hm : 0 < arr.length) (hcnt : cnt ≠ (arr.length : Int)) :
    ∀ d j0 st fuel, (st = none ∨ st = some (hash2 arr.length k)) → d < fuel →
      (∀ i < d, occ_other k (slotAt arr (walkP arr.length k (j0 + i))) = true) →
      slotAt arr (walkP arr.length k (j0 + d)) = Slot.occ k v →
      probeAux arr cnt k false fuel (walkP arr.length k j0) st none =
        .ok (walkP arr.length k (j0 + d), arr) := by
  have hfs : falsy (some (hash2 arr.length k)) = false := by
    rw [falsy_some, beq_eq_false_iff_ne]; exact hash2_ne_zero _ _
  intro d
  induction d with
  | zero =>
    intro j0 st fuel hst hfuel hlead htarget
    simp only [Nat.add_zero] at htarget ⊢
    match fuel, hfuel with
    | f + 1, _ =>
      have hget : arr.get? (walkP arr.length k j0) = some (Slot.occ k v) := by
        rw [get?_slotAt arr _ (walkP_lt arr.length hm k j0), htarget]
      simp only [probeAux, if_neg hcnt, hget, if_pos rfl, falsy_none, if_true]
  | succ d ih =>
    intro j0 st fuel hst hfuel hlead htarget
    match fuel, hfuel with
    | f + 1, hfuel =>
      have h0 := hlead 0 (Nat.succ_pos d)
      rw [Nat.add_zero] at h0
      obtain ⟨k2, v2, hkv⟩ : ∃ k2 v2,
          slotAt arr (walkP arr.length k j0) = Slot.occ k2 v2 := by
        cases hsl : slotAt arr (walkP arr.length k j0) with
        | empty => rw [hsl] at h0; cases h0
        | tomb => rw [hsl] at h0; cases h0
        | occ k2 v2 => exact ⟨k2, v2, rfl⟩
      have hget : arr.get? (walkP arr.length k j0) = some (Slot.occ k2 v2) := by
        rw [get?_slotAt arr _ (walkP_lt arr.length hm k j0), hkv]
      have hne : ¬ (k2 = k) := by
        rw [hkv] at h0
        simpa [occ_other, bne_iff_ne] using h0
      have hstep : (if falsy st then some (hash2 arr.length k) else st) =
          some (hash2 arr.length k) := by
        rcases hst with h | h <;> rw [h] <;> simp [falsy_none, hfs]
      have hrec := ih (j0 + 1) (some (hash2 arr.length k)) f (Or.inr rfl) (by omega)
        (by
          intro i hi
          have := hlead (i + 1) (Nat.succ_lt_succ hi)
          rwa [show j0 + (i + 1) = j0 + 1 + i by ring] at this)
        (by rwa [show j0 + 1 + d = j0 + (d + 1) by ring])
      rw [show j0 + 1 + d = j0 + (d + 1) by ring] at hrec
      simp only [probeAux, if_neg hcnt, hget, if_neg hne, Bool.false_eq_true, if_false,
        hstep, Option.getD_some, walkP_succ]
      exact hrec

/-- On a well-formed non-full table at prime capacity, an insert probe for
an absent key terminates at the first empty slot of the key's walk. -/
theorem probe_insert_fresh_pos {V : Type} (s : State V) (k : Key) (hinv : Inv s)
    (habs : keyAbsent s k) (hp : (table_size s).Prime)
    (hlt : occCount s.array < table_size s) :
    ∃ d, slotAt s.array (walkP (table_size s) k d) = Slot.empty ∧
      (∀ i < d, occ_other k (slotAt s.array (walkP (table_size s) k i)) = true) ∧
      ∀ fuel, d < fuel →
        hashy_probe fuel s k true = .ok (walkP (table_size s) k d, s.array) := by
  have hm2 : 2 ≤ table_size s := hp.two_le
  have hm : 0 < table_size s := by omega
  have hcnt : s.count ≠ (table_size s : Int) := by
    rw [hinv.cnt]
    intro hc
    have : occCount s.array = table_size s := by exact_mod_cast hc
    omega
  obtain ⟨epos, he⟩ := exists_empty_slot s.array hinv.tombfree hlt
  have helt : epos < table_size s := lt_of_get?_some he
  obtain ⟨i0, hi0⟩ := walk_hits (table_size s) hm2 k
    (hash2_coprime (table_size s) hp k) epos helt
  have hP : ∃ j, slotAt s.array (walkP (table_size s) k j) = Slot.empty :=
    ⟨i0, by rw [hi0]; exact slotAt_of_get? he⟩
  classical
  set d := Nat.find hP with hd
  have hside : slotAt s.array (walkP (table_size s) k d) = Slot.empty :=
    Nat.find_spec hP
  have hlead : ∀ i < d, occ_other k (slotAt s.array (walkP (table_size s) k i)) = true := by
    intro i hi
    have hnotP := Nat.find_min hP hi
    have hwlt := walkP_lt (table_size s) hm k i
    cases hsl : slotAt s.array (walkP (table_size s) k i) with
    | empty => exact absurd hsl hnotP
    | tomb =>
      have : s.array.get? (walkP (table_size s) k i) = some Slot.tomb := by
        rw [get?_slotAt s.array _ hwlt, hsl]
      exact absurd this (hinv.tombfree _)
    | occ k2 v2 =>
      by_cases hk : k2 = k
      · have hgo : s.array.get? (walkP (table_size s) k i) = some (Slot.occ k v2) := by
          rw [get?_slotAt s.array _ hwlt, hsl, hk]
        exact absurd hgo (habs _ _)
      · simp [occ_other, bne_iff_ne, hk]
  refine ⟨d, hside, hlead, ?_⟩
  intro fuel hfuel
  unfold hashy_probe
  rw [hash_eq_walkP_zero _ hm]
  have := probe_insert_reach s.array s.count k hm hcnt d 0 none fuel (Or.inl rfl)
    hfuel (by simpa using hlead) (Or.inl (by simpa using hside))
  simpa using this

/-- On a well-formed non-full table, `get` finds any present binding and
leaves the state unchanged. -/
theorem getitem_found {V : Type} (s : State V) (k : Key) (v : V) (hinv : Inv s)
    (hcnt : s.count ≠ (table_size s : Int)) (hb : hasBinding s k v) :
    ∃ F, ∀ fuel, F ≤ fuel → getitem fuel s k = .ok (v, s) := by
  obtain ⟨q, hq⟩ := hb
  have hm : 0 < table_size s := by
    have := lt_of_get?_some hq
    unfold table_size
    omega
  obtain ⟨j, hwj, hpre⟩ := hinv.reach q k v hq
  have hlead : ∀ i < j, occ_other k (slotAt s.array (walkP (table_size s) k i)) = true := by
    intro i hi
    obtain ⟨k2, v2, hk2, hne⟩ := hpre i hi
    rw [slotAt_of_get? hk2]
    simp [occ_other, bne_iff_ne, hne]
  have htarget : slotAt s.array (walkP (table_size s) k j) = Slot.occ k v := by
    rw [hwj]
    exact slotAt_of_get? hq
  have hprobe : ∀ fuel, j < fuel →
      hashy_probe fuel s k false = .ok (walkP (table_size s) k j, s.array) := by
    intro fuel hfuel
    unfold hashy_probe
    rw [hash_eq_walkP_zero _ hm]
    have := probe_lookup_reach s.array s.count k v hm hcnt j 0 none fuel (Or.inl rfl)
      hfuel (by simpa using hlead) (by simpa using htarget)
    simpa using this
  refine ⟨j + 1, ?_⟩
  intro fuel hfuel
  have hpr := hprobe fuel (by omega)
  rw [hwj] at hpr
  simp only [getitem, hpr, hq]

theorem occ_other_spec {V : Type} {k : Key} {sl : Slot V}
    (h : occ_other k sl = true) : ∃ k2 v2, sl = Slot.occ k2 v2 ∧ k2 ≠ k := by
  cases sl with
  | empty => cases h
  | tomb => cases h
  | occ k2 v2 =>
    refine ⟨k2, v2, rfl, ?_⟩
    simpa [occ_other, bne_iff_ne] using h

/-- Inserting an absent key into a well-formed tombstone-free table at
prime capacity: the probe resolves to the first empty slot `walkP … d` of
the key's walk, and the written state (`insertState`) is well-formed with
exactly the new binding added. -/
theorem insert_step_spec {V : Type} (s : State V) (k : Key) (v : V)
    (hinv : Inv s) (habs : keyAbsent s k) (hp : (table_size s).Prime)
    (hlt : occCount s.array < table_size s) :
    ∃ d, (∀ fuel, d < fuel → hashy_probe fuel s k true =
        .ok (walkP (table_size s) k d, s.array)) ∧
      s.array.get? (walkP (table_size s) k d) = some Slot.empty ∧
      Inv (insertState s (walkP (table_size s) k d) k v) ∧
      table_size (insertState s (walkP (table_size s) k d) k v) = table_size s ∧
      occCount (insertState s (walkP (table_size s) k d) k v).array =
        occCount s.array + 1 ∧
      hasBinding (insertState s (walkP (table_size s) k d) k v) k v ∧
      (∀ k2 v2, k2 ≠ k →
        (hasBinding (insertState s (walkP (table_size s) k d) k v) k2 v2 ↔
          hasBinding s k2 v2)) := by
  obtain ⟨d, hempty, hlead, hprobe⟩ := probe_insert_fresh_pos s k hinv habs hp hlt
  have hm : 0 < table_size s := by have := hp.two_le; omega
  have heplt : walkP (table_size s) k d < s.array.length :=
    walkP_lt (table_size s) hm k d
  have heget : s.array.get? (walkP (table_size s) k d) = some Slot.empty := by
    rw [get?_slotAt s.array _ heplt, hempty]
  have hlen : (s.array.set (walkP (table_size s) k d) (Slot.occ k v)).length =
      s.array.length := by simp
  refine ⟨d, hprobe, heget, ?_, ?_, ?_, ?_, ?_⟩
  · -- invariant
    refine ⟨?_, ?_, ?_, ?_⟩
    · show s.count + 1 = (occCount (s.array.set (walkP (table_size s) k d)
        (Slot.occ k v)) : Int)
      rw [hinv.cnt, occCount_set_occ_of_empty k v s.array _ heget]
      push_cast
      ring
    · intro q
      show (s.array.set (walkP (table_size s) k d) (Slot.occ k v)).get? q ≠ _
      by_cases hqe : q = walkP (table_size s) k d
      · subst hqe
        rw [List.get?_set_eq_of_lt _ heplt]
        intro hc
        cases hc
      · rw [List.get?_set_ne _ _ (fun hc => hqe hc.symm)]
        exact hinv.tombfree q
    · intro q1 q2 k3 v1 v2 h1 h2
      simp only [insertState] at h1 h2
      by_cases he1 : q1 = walkP (table_size s) k d <;>
        by_cases he2 : q2 = walkP (table_size s) k d
      · rw [he1, he2]
      · rw [he1, List.get?_set_eq_of_lt _ heplt] at h1
        cases h1
        rw [List.get?_set_ne _ _ (fun hc => he2 hc.symm)] at h2
        exact absurd h2 (habs q2 v2)
      · rw [he2, List.get?_set_eq_of_lt _ heplt] at h2
        cases h2
        rw [List.get?_set_ne _ _ (fun hc => he1 hc.symm)] at h1
        exact absurd h1 (habs q1 v1)
      · rw [List.get?_set_ne _ _ (fun hc => he1 hc.symm)] at h1
        rw [List.get?_set_ne _ _ (fun hc => he2 hc.symm)] at h2
        exact hinv.uniq q1 q2 k3 v1 v2 h1 h2
    · intro q k3 v3 hq3
      simp only [insertState] at hq3
      have hts : table_size (insertState s (walkP (table_size s) k d) k v) =
          table_size s := by
        simp [insertState, table_size]
      rw [hts]
      by_cases hqe : q = walkP (table_size s) k d
      · subst hqe
        rw [List.get?_set_eq_of_lt _ heplt] at hq3
        cases hq3
        refine ⟨d, rfl, ?_⟩
        intro i hi
        obtain ⟨k2, v2, hsl, hne⟩ := occ_other_spec (hlead i hi)
        have hwlt : walkP (table_size s) k i < s.array.length :=
          walkP_lt (table_size s) hm k i
        have hwne : walkP (table_size s) k i ≠ walkP (table_size s) k d := by
          intro hc
          rw [hc, hempty] at hsl
          cases hsl
        refine ⟨k2, v2, ?_, hne⟩
        show (s.array.set (walkP (table_size s) k d) (Slot.occ k v)).get? _ = _
        rw [List.get?_set_ne _ _ (fun hc => hwne hc.symm), get?_slotAt s.array _ hwlt,
          hsl]
      · rw [List.get?_set_ne _ _ (fun hc => hqe hc.symm)] at hq3
        obtain ⟨j, hwj, hpre⟩ := hinv.reach q k3 v3 hq3
        refine ⟨j, hwj, ?_⟩
        intro i hi
        obtain ⟨k2, v2, hk2, hne⟩ := hpre i hi
        have hwne : walkP (table_size s) k3 i ≠ walkP (table_size s) k d := by
          intro hc
          rw [hc, heget] at hk2
          cases hk2
        refine ⟨k2, v2, ?_, hne⟩
        show (s.array.set (walkP (table_size s) k d) (Slot.occ k v)).get? _ = _
        rw [List.get?_set_ne _ _ (fun hc => hwne hc.symm)]
        exact hk2
  · show (s.array.set (walkP (table_size s) k d) (Slot.occ k v)).length =
      s.array.length
    exact hlen
  · exact occCount_set_occ_of_empty k v s.array _ heget
  · exact ⟨walkP (table_size s) k d, List.get?_set_eq_of_lt _ heplt⟩
  · intro k2 v2 hk2
    constructor
    · rintro ⟨q, hq⟩
      simp only [insertState] at hq
      by_cases hqe : q = walkP (table_size s) k d
      · rw [hqe, List.get?_set_eq_of_lt _ heplt] at hq
        cases hq
        exact absurd rfl hk2
      · rw [List.get?_set_ne _ _ (fun hc => hqe hc.symm)] at hq
        exact ⟨q, hq⟩
    · rintro ⟨q, hq⟩
      by_cases hqe : q = walkP (table_size s) k d
      · rw [hqe, heget] at hq
        cases hq
      · refine ⟨q, ?_⟩
        show (s.array.set (walkP (table_size s) k d) (Slot.occ k v)).get? q = _
        rw [List.get?_set_ne _ _ (fun hc => hqe hc.symm)]
        exact hq

/-- `__setitem__` of an absent key on a well-formed tombstone-free table at
prime capacity, when the insert does not breach the load factor: it
succeeds, adds exactly the new binding, and preserves well-formedness. -/
theorem setitem_fresh_no_rehash {V : Type} (s : State V) (k : Key) (v : V)
    (hinv : Inv s) (habs : keyAbsent s k) (hp : (table_size s).Prime)
    (hlt : occCount s.array < table_size s)
    (hnotrig : 3 * (occCount s.array + 1) ≤ 2 * table_size s) :
    ∃ F s2, (∀ fuel, F ≤ fuel → setitem fuel s k v = .ok s2) ∧
      Inv s2 ∧ s2.sizes = s.sizes ∧ s2.size_index = s.size_index ∧
      table_size s2 = table_size s ∧ occCount s2.array = occCount s.array + 1 ∧
      hasBinding s2 k v ∧
      (∀ k2 v2, k2 ≠ k → (hasBinding s2 k2 v2 ↔ hasBinding s k2 v2)) := by
  obtain ⟨d, hprobe, heget, hinv2, hts2, hocc2, hb2, hother2⟩ :=
    insert_step_spec s k v hinv habs hp hlt
  refine ⟨d + 2, insertState s (walkP (table_size s) k d) k v, ?_, hinv2, rfl, rfl,
    hts2, hocc2, hb2, hother2⟩
  intro fuel hfuel
  cases fuel with
  | zero => omega
  | succ f =>
    have hpr := hprobe (f + 1) (by omega)
    have hcond : ¬ (3 * (s.count + 1) > 2 * ((s.array.set (walkP (table_size s) k d)
        (Slot.occ k v)).length : Int)) := by
      rw [show (s.array.set (walkP (table_size s) k d) (Slot.occ k v)).length =
        s.array.length by simp, hinv.cnt]
      have h2 : (s.array.length : Int) = ((table_size s : Nat) : Int) := rfl
      rw [h2]
      omega
    simp only [setitem, setCore, hpr, heget]
    simp only [table_size]
    simp only [table_size] at hcond
    rw [if_neg hcond]
    rfl

theorem keyAbsent_iff {V : Type} (s : State V) (k : Key) :
    keyAbsent s k ↔ ∀ v, ¬ hasBinding s k v := by
  unfold keyAbsent hasBinding
  constructor
  · rintro h v ⟨q, hq⟩
    exact h q v hq
  · intro h q v hq
    exact h v ⟨q, hq⟩

theorem binding_unique {V : Type} (s : State V) (k : Key) (v1 v2 : V)
    (hinv : Inv s) (h1 : hasBinding s k v1) (h2 : hasBinding s k v2) : v1 = v2 := by
  obtain ⟨q1, hq1⟩ := h1
  obtain ⟨q2, hq2⟩ := h2
  have := hinv.uniq q1 q2 k v1 v2 hq1 hq2
  subst this
  rw [hq1] at hq2
  cases hq2
  rfl

theorem key_mem_of_occ_mem {V : Type} {arr : List (Slot V)} {k : Key} {v : V}
    (h : Slot.occ k v ∈ arr) : k ∈ itemKeys arr := by
  obtain ⟨q, hq⟩ := List.mem_iff_get?.mp h
  exact (mem_itemKeys arr k).mpr ⟨q, v, hq⟩

theorem replicate_get?_eq {α : Type} {n i : Nat} {a x : α}
    (h : (List.replicate n a).get? i = some x) : x = a := by
  by_cases hi : i < n
  · rw [get?_replicate_lt a n i hi] at h
    cases h
    rfl
  · rw [List.get?_eq_none.mpr (by simpa using Nat.le_of_not_lt hi)] at h
    cases h

/-- The fresh state of a rehash is well-formed. -/
theorem Inv_freshState {V : Type} (szs : List Nat) (si m2 : Nat) :
    Inv (freshState (V := V) szs si m2) := by
  refine ⟨?_, ?_, ?_, ?_⟩
  · show (0 : Int) = (occCount (List.replicate m2 Slot.empty) : Int)
    rw [occCount_replicate]
    rfl
  · intro q hq
    have := replicate_get?_eq hq
    cases this
  · intro q1 q2 k v1 v2 h1 _
    have := replicate_get?_eq h1
    cases this
  · intro q k v hq
    have := replicate_get?_eq hq
    cases this

/-- No key is bound in the fresh state. -/
theorem keyAbsent_freshState {V : Type} (szs : List Nat) (si m2 : Nat) (k : Key) :
    keyAbsent (freshState (V := V) szs si m2) k := by
  intro q v hq
  have := replicate_get?_eq hq
  cases this

/-- The reinsertion loop of `_rehash`, run with `setitem` at any large
enough fuel, adds exactly the occupied items (all of whose keys are fresh
and pairwise distinct) to a well-formed table at prime capacity, provided
the total stays under the load-factor threshold. -/
theorem reinsert_preserves {V : Type} (m2 : Nat) (hp : m2.Prime) :
    ∀ (items : List (Slot V)) (s0 : State V),
      Inv s0 → table_size s0 = m2 →
      (itemKeys items).Nodup →
      (∀ k2, k2 ∈ itemKeys items → ∀ v2, ¬ hasBinding s0 k2 v2) →
      3 * (occCount s0.array + occCount items) ≤ 2 * m2 →
      ∃ F s2, (∀ fuel, F ≤ fuel → reinsertWith (setitem fuel) s0 items = .ok s2) ∧
        Inv s2 ∧ s2.sizes = s0.sizes ∧ s2.size_index = s0.size_index ∧
        table_size s2 = m2 ∧
        occCount s2.array = occCount s0.array + occCount items ∧
        (∀ k2 v2, hasBinding s2 k2 v2 ↔
          (hasBinding s0 k2 v2 ∨ Slot.occ k2 v2 ∈ items)) := by
  intro items
  induction items with
  | nil =>
    intro s0 hinv hts _ _ _
    refine ⟨0, s0, fun fuel _ => rfl, hinv, rfl, rfl, hts, ?_, ?_⟩
    · show occCount s0.array = occCount s0.array + occCount ([] : List (Slot V))
      rfl
    · intro k2 v2
      simp
  | cons a rest ih =>
    intro s0 hinv hts hnd habs hload
    cases a with
    | empty =>
      obtain ⟨F, s2, hrun, props⟩ := ih s0 hinv hts hnd habs
        (by rwa [occCount_cons_empty] at hload)
      refine ⟨F, s2, fun fuel hf => hrun fuel hf, props.1, props.2.1, props.2.2.1,
        props.2.2.2.1, ?_, ?_⟩
      · rw [occCount_cons_empty]
        exact props.2.2.2.2.1
      · intro k2 v2
        rw [props.2.2.2.2.2 k2 v2]
        simp [List.mem_cons]
    | tomb =>
      obtain ⟨F, s2, hrun, props⟩ := ih s0 hinv hts hnd habs
        (by rwa [occCount_cons_tomb] at hload)
      refine ⟨F, s2, fun fuel hf => hrun fuel hf, props.1, props.2.1, props.2.2.1,
        props.2.2.2.1, ?_, ?_⟩
      · rw [occCount_cons_tomb]
        exact props.2.2.2.2.1
      · intro k2 v2
        rw [props.2.2.2.2.2 k2 v2]
        simp [List.mem_cons]
    | occ k v =>
      rw [occCount_cons_occ] at hload
      have hkeys : itemKeys (Slot.occ k v :: rest) = k :: itemKeys rest := rfl
      rw [hkeys, List.nodup_cons] at hnd
      have hm2 : 2 ≤ m2 := hp.two_le
      have habsk : keyAbsent s0 k := by
        rw [keyAbsent_iff]
        intro v2
        exact habs k (by rw [hkeys]; exact List.mem_cons_self _ _) v2
      have hp0 : (table_size s0).Prime := by rw [hts]; exact hp
      have hlt0 : occCount s0.array < table_size s0 := by rw [hts]; omega
      have hnt0 : 3 * (occCount s0.array + 1) ≤ 2 * table_size s0 := by
        rw [hts]; omega
      obtain ⟨F1, s1, hrun1, hinv1, hsz1, hsi1, hts1, hocc1, hbk, hother⟩ :=
        setitem_fresh_no_rehash s0 k v hinv habsk hp0 hlt0 hnt0
      have hts1m : table_size s1 = m2 := by rw [hts1, hts]
      have hnd1 : (itemKeys rest).Nodup := hnd.2
      have habs1 : ∀ k2, k2 ∈ itemKeys rest → ∀ v2, ¬ hasBinding s1 k2 v2 := by
        intro k2 hk2 v2
        have hne : k2 ≠ k := fun hc => hnd.1 (hc ▸ hk2)
        rw [hother k2 v2 hne]
        exact habs k2 (by rw [hkeys]; exact List.mem_cons_of_mem _ hk2) v2
      have hload1 : 3 * (occCount s1.array + occCount rest) ≤ 2 * m2 := by
        rw [hocc1]; omega
      obtain ⟨F2, s2, hrun2, hinv2, hsz2, hsi2, hts2, hocc2, hbind2⟩ :=
        ih s1 hinv1 hts1m hnd1 habs1 hload1
      refine ⟨max F1 F2, s2, ?_, hinv2, by rw [hsz2, hsz1], by rw [hsi2, hsi1],
        hts2, ?_, ?_⟩
      · intro fuel hf
        have h1 := hrun1 fuel (le_trans (le_max_left _ _) hf)
        have h2 := hrun2 fuel (le_trans (le_max_right _ _) hf)
        show (match setitem fuel s0 k v with
          | .ok s' => reinsertWith (setitem fuel) s' rest
          | .error e => .error e) = .ok s2
        rw [h1]
        exact h2
      · rw [hocc2, hocc1, occCount_cons_occ]
        ring
      · intro k2 v2
        rw [hbind2 k2 v2]
        by_cases hk2 : k2 = k
        · subst hk2
          constructor
          · rintro (hb1 | hmem)
            · have hv2 : v2 = v := binding_unique s1 k2 v2 v hinv1 hb1 hbk
              subst hv2
              exact Or.inr (List.mem_cons_self _ _)
            · exact absurd (key_mem_of_occ_mem hmem) hnd.1
          · rintro (hb0 | hmem)
            · exact absurd hb0 ((keyAbsent_iff s0 k2).mp habsk v2)
            · rcases List.mem_cons.mp hmem with heq | hmem'
              · cases heq
                exact Or.inl hbk
              · exact absurd (key_mem_of_occ_mem hmem') hnd.1
        · rw [hother k2 v2 hk2]
          constructor
          · rintro (hb0 | hmem)
            · exact Or.inl hb0
            · exact Or.inr (List.mem_cons_of_mem _ hmem)
          · rintro (hb0 | hmem)
            · exact Or.inl hb0
            · rcases List.mem_cons.mp hmem with heq | hmem'
              · cases heq
                exact absurd rfl hk2
              · exact Or.inr hmem'

/-- A growing `_rehash` (ladder not yet exhausted, next capacity prime and
ample): it succeeds, advances `size_index`, and preserves all bindings. -/
theorem rehash_grow_ok {V : Type} (s : State V) (m2 : Nat) (hinv : Inv s)
    (hsi : ¬ (s.size_index + 1 = s.sizes.length))
    (hget : s.sizes.get? (s.size_index + 1) = some m2)
    (hp : m2.Prime)
    (hcap : 3 * occCount s.array ≤ 2 * m2) :
    ∃ F s2, (∀ fuel, F ≤ fuel → rehashWith (setitem fuel) s = .ok s2) ∧
      Inv s2 ∧ s2.sizes = s.sizes ∧ s2.size_index = s.size_index + 1 ∧
      table_size s2 = m2 ∧ occCount s2.array = occCount s.array ∧
      (∀ k2 v2, hasBinding s2 k2 v2 ↔ hasBinding s k2 v2) := by
  have hfresh0 : Inv (freshState (V := V) s.sizes (s.size_index + 1) m2) :=
    Inv_freshState _ _ _
  have htsf : table_size (freshState (V := V) s.sizes (s.size_index + 1) m2) = m2 := by
    show (List.replicate m2 (Slot.empty : Slot V)).length = m2
    simp
  have hnd : (itemKeys s.array).Nodup := nodup_itemKeys s.array hinv.uniq
  have habsf : ∀ k2, k2 ∈ itemKeys s.array → ∀ v2,
      ¬ hasBinding (freshState (V := V) s.sizes (s.size_index + 1) m2) k2 v2 := by
    intro k2 _ v2
    exact (keyAbsent_iff _ k2).mp (keyAbsent_freshState _ _ _ k2) v2
  have hload : 3 * (occCount (freshState (V := V) s.sizes (s.size_index + 1)
      m2).array + occCount s.array) ≤ 2 * m2 := by
    show 3 * (occCount (List.replicate m2 (Slot.empty : Slot V)) + occCount s.array) ≤
      2 * m2
    rw [occCount_replicate]
    omega
  obtain ⟨F, s2, hrun, hinv2, hsz2, hsi2, hts2, hocc2, hbind2⟩ :=
    reinsert_preserves m2 hp s.array
      (freshState (V := V) s.sizes (s.size_index + 1) m2)
      hfresh0 htsf hnd habsf hload
  refine ⟨F, s2, ?_, hinv2, hsz2, hsi2, hts2, ?_, ?_⟩
  · intro fuel hf
    show (if s.size_index + 1 = s.sizes.length then _ else _) = _
    rw [if_neg hsi]
    simp only [hget]
    exact hrun fuel hf
  · rw [hocc2]
    show occCount (List.replicate m2 (Slot.empty : Slot V)) + occCount s.array =
      occCount s.array
    rw [occCount_replicate]
    omega
  · intro k2 v2
    rw [hbind2 k2 v2]
    constructor
    · rintro (hb | hmem)
      · exact absurd hb ((keyAbsent_iff _ k2).mp (keyAbsent_freshState _ _ _ k2) v2)
      · exact (hasBinding_iff_mem s k2 v2).mpr hmem
    · intro hb
      exact Or.inr ((hasBinding_iff_mem s k2 v2).mp hb)

/-- `__setitem__` of an absent key that breaches the load factor, with the
ladder still offering a prime and ample next capacity: the insert and the
triggered rehash both succeed, and the result holds exactly the old
bindings plus the new one at the new capacity. -/
theorem setitem_fresh_rehash {V : Type} (s : State V) (k : Key) (v : V)
    (hinv : Inv s) (habs : keyAbsent s k) (hp : (table_size s).Prime)
    (hlt : occCount s.array < table_size s)
    (htrig : 2 * table_size s < 3 * (occCount s.array + 1)) (m2 : Nat)
    (hsi : ¬ (s.size_index + 1 = s.sizes.length))
    (hget : s.sizes.get? (s.size_index + 1) = some m2)
    (hp2 : m2.Prime)
    (hcap : 3 * (occCount s.array + 1) ≤ 2 * m2) :
    ∃ F s2, (∀ fuel, F ≤ fuel → setitem fuel s k v = .ok s2) ∧
      Inv s2 ∧ s2.sizes = s.sizes ∧ s2.size_index = s.size_index + 1 ∧
      table_size s2 = m2 ∧ occCount s2.array = occCount s.array + 1 ∧
      hasBinding s2 k v ∧
      (∀ k2 v2, k2 ≠ k → (hasBinding s2 k2 v2 ↔ hasBinding s k2 v2)) := by
  obtain ⟨d, hprobe, heget, hinv1, hts1, hocc1, hb1, hother1⟩ :=
    insert_step_spec s k v hinv habs hp hlt
  have hcap1 : 3 * occCount (insertState s (walkP (table_size s) k d) k v).array ≤
      2 * m2 := by rw [hocc1]; exact hcap
  obtain ⟨F2, s2, hrun2, hinv2, hsz2, hsi2, hts2, hocc2, hbind2⟩ :=
    rehash_grow_ok (insertState s (walkP (table_size s) k d) k v) m2 hinv1
      hsi hget hp2 hcap1
  refine ⟨max (d + 2) (F2 + 1), s2, ?_, hinv2, hsz2, hsi2, hts2, ?_, ?_, ?_⟩
  · intro fuel hfuel
    have hf1 : d + 2 ≤ fuel := le_trans (le_max_left _ _) hfuel
    have hf2 : F2 + 1 ≤ fuel := le_trans (le_max_right _ _) hfuel
    cases fuel with
    | zero => omega
    | succ f =>
      have hpr := hprobe (f + 1) (by omega)
      have hcond : 3 * (s.count + 1) > 2 * ((s.array.set (walkP (table_size s) k d)
          (Slot.occ k v)).length : Int) := by
        rw [show (s.array.set (walkP (table_size s) k d) (Slot.occ k v)).length =
          s.array.length by simp, hinv.cnt]
        have h2 : (s.array.length : Int) = ((table_size s : Nat) : Int) := rfl
        rw [h2]
        omega
      simp only [setitem, setCore, hpr, heget]
      simp only [table_size]
      simp only [table_size] at hcond
      rw [if_pos hcond]
      exact hrun2 f (by omega)
  · rw [hocc2, hocc1]
  · rw [hbind2 k v]
    exact hb1
  · intro k2 v2 hk2
    rw [hbind2 k2 v2]
    exact hother1 k2 v2 hk2

/-- Running distinct fresh inserts from a reachable round-trip state of the
default table (at most 4 keys in total): every insert succeeds — including
the fourth one's rehash from capacity 5 to 13 — and the final state is
well-formed and holds exactly the inserted bindings. -/
theorem roundtrip_aux {V : Type} :
    ∀ (rest done : List (Key × V)) (s : State V),
      ((done ++ rest).map Prod.fst).Nodup →
      done.length + rest.length ≤ 4 →
      Inv s → s.sizes = TABLE_SIZES →
      occCount s.array = done.length →
      (∀ k v, hasBinding s k v ↔ (k, v) ∈ done) →
      (done.length ≤ 3 ∧ s.size_index = 0 ∧ table_size s = 5 ∨
        done.length = 4 ∧ s.size_index = 1 ∧ table_size s = 13) →
      ∃ F s2, (∀ fuel, F ≤ fuel → run_ops fuel s (set_ops rest) = .ok s2) ∧
        Inv s2 ∧ occCount s2.array = done.length + rest.length ∧
        (∀ k v, hasBinding s2 k v ↔ (k, v) ∈ done ++ rest) ∧
        (table_size s2 = 5 ∨ table_size s2 = 13) := by
  intro rest
  induction rest with
  | nil =>
    intro done s hnd hlen hinv hsz hocc hbind hphase
    refine ⟨0, s, fun fuel _ => rfl, hinv, by simpa using hocc, ?_, ?_⟩
    · intro k v
      rw [hbind k v]
      simp
    · rcases hphase with ⟨_, _, h5⟩ | ⟨_, _, h13⟩
      · exact Or.inl h5
      · exact Or.inr h13
  | cons p rest' ih =>
    intro done s hnd hlen hinv hsz hocc hbind hphase
    obtain ⟨k, v⟩ := p
    have hknd : k ∉ done.map Prod.fst := by
      rw [List.map_append] at hnd
      have hd := List.nodup_append.mp hnd
      intro hc
      exact hd.2.2 hc (by rw [List.map_cons]; exact List.mem_cons_self _ _)
    have habs : keyAbsent s k := by
      rw [keyAbsent_iff]
      intro v2 hb
      have := (hbind k v2).mp hb
      exact hknd (by
        rw [List.mem_map]
        exact ⟨(k, v2), this, rfl⟩)
    have hnd' : ((done ++ [(k, v)] ++ rest').map Prod.fst).Nodup := by
      rwa [List.append_assoc]
    have hbind1 : ∀ (s1 : State V), hasBinding s1 k v →
        (∀ k2 v2, k2 ≠ k → (hasBinding s1 k2 v2 ↔ hasBinding s k2 v2)) → Inv s1 →
        ∀ k2 v2, hasBinding s1 k2 v2 ↔ (k2, v2) ∈ done ++ [(k, v)] := by
      intro s1 hb1 hother hinv1 k2 v2
      by_cases hk2 : k2 = k
      · subst hk2
        constructor
        · intro hb
          have hv : v2 = v := binding_unique s1 k2 v2 v hinv1 hb hb1
          subst hv
          simp
        · intro hmem
          rcases List.mem_append.mp hmem with hmd | hms
          · exact absurd hmd (fun hc => hknd (by
              rw [List.mem_map]
              exact ⟨(k2, v2), hc, rfl⟩))
          · rcases List.mem_singleton.mp hms with h
            cases h
            exact hb1
      · rw [hother k2 v2 hk2, hbind k2 v2]
        constructor
        · intro hmd
          exact List.mem_append.mpr (Or.inl hmd)
        · intro hmem
          rcases List.mem_append.mp hmem with hmd | hms
          · exact hmd
          · rcases List.mem_singleton.mp hms with h
            cases h
            exact absurd rfl hk2
    rcases hphase with ⟨hi3, hsi0, hts5⟩ | ⟨hi4, _, _⟩
    · -- current capacity 5
      have hp5 : (table_size s).Prime := by rw [hts5]; norm_num
      have hlt : occCount s.array < table_size s := by rw [hts5]; omega
      by_cases hlast : done.length ≤ 2
      · -- no load-factor breach
        have hnt : 3 * (occCount s.array + 1) ≤ 2 * table_size s := by
          rw [hts5, hocc]; omega
        obtain ⟨F1, s1, hrun1, hinv1, hsz1, hsi1, hts1, hocc1, hb1, hother1⟩ :=
          setitem_fresh_no_rehash s k v hinv habs hp5 hlt hnt
        obtain ⟨F2, s2, hrun2, hinv2, hocc2, hbind2, hts2⟩ :=
          ih (done ++ [(k, v)]) s1 hnd'
            (by simp at hlen ⊢; omega) hinv1 (by rw [hsz1, hsz])
            (by rw [hocc1, hocc]; simp)
            (hbind1 s1 hb1 hother1 hinv1)
            (Or.inl ⟨by simp; omega, by rw [hsi1, hsi0], by rw [hts1, hts5]⟩)
        refine ⟨max F1 F2, s2, ?_, hinv2, ?_, ?_, hts2⟩
        · intro fuel hf
          show (match setitem fuel s k v with
            | .ok s' => run_ops fuel s' (set_ops rest')
            | .error e => .error e) = .ok s2
          rw [hrun1 fuel (le_trans (le_max_left _ _) hf)]
          exact hrun2 fuel (le_trans (le_max_right _ _) hf)
        · rw [hocc2]
          simp
          omega
        · intro k2 v2
          rw [hbind2 k2 v2, List.append_assoc]
          rfl
      · -- fourth insert: load factor breached, rehash 5 → 13
        have hd3 : done.length = 3 := by omega
        have htrig : 2 * table_size s < 3 * (occCount s.array + 1) := by
          rw [hts5, hocc, hd3]; omega
        have hsi : ¬ (s.size_index + 1 = s.sizes.length) := by
          rw [hsi0, hsz]
          decide
        have hget : s.sizes.get? (s.size_index + 1) = some 13 := by
          rw [hsi0, hsz]
          rfl
        have hp13 : (13 : Nat).Prime := by norm_num
        have hcap : 3 * (occCount s.array + 1) ≤ 2 * 13 := by
          rw [hocc, hd3]; omega
        obtain ⟨F1, s1, hrun1, hinv1, hsz1, hsi1, hts1, hocc1, hb1, hother1⟩ :=
          setitem_fresh_rehash s k v hinv habs hp5 hlt htrig 13 hsi hget hp13 hcap
        obtain ⟨F2, s2, hrun2, hinv2, hocc2, hbind2, hts2⟩ :=
          ih (done ++ [(k, v)]) s1 hnd'
            (by simp at hlen ⊢; omega) hinv1 (by rw [hsz1, hsz])
            (by rw [hocc1, hocc]; simp)
            (hbind1 s1 hb1 hother1 hinv1)
            (Or.inr ⟨by simp; omega, by rw [hsi1, hsi0], hts1⟩)
        refine ⟨max F1 F2, s2, ?_, hinv2, ?_, ?_, hts2⟩
        · intro fuel hf
          show (match setitem fuel s k v with
            | .ok s' => run_ops fuel s' (set_ops rest')
            | .error e => .error e) = .ok s2
          rw [hrun1 fuel (le_trans (le_max_left _ _) hf)]
          exact hrun2 fuel (le_trans (le_max_right _ _) hf)
        · rw [hocc2]
          simp
          omega
        · intro k2 v2
          rw [hbind2 k2 v2, List.append_assoc]
          rfl
    · -- current capacity 13 with 4 keys: no further insert fits the bound
      exfalso
      simp at hlen
      omega

/-- Claim C6 (round-trip): for every sequence of pairwise-distinct keys
`k1…kn` with `n` below the capacity of the empty default table, performing
`set(ki, vi)` for all `i` from the empty table succeeds (with enough fuel),
and afterwards `get(ki)` returns `vi` for every `i`, leaving the state
unchanged. -/
theorem claim_C6_roundtrip {V : Type} (kvs : List (Key × V))
    (hnd : (kvs.map Prod.fst).Nodup)
    (hn : kvs.length < table_size (empty_default (V := V))) :
    ∃ F s2, (∀ fuel, F ≤ fuel →
        run_ops fuel (empty_default (V := V)) (set_ops kvs) = .ok s2) ∧
      ∀ p ∈ kvs, ∃ G, ∀ g, G ≤ g → getitem g s2 p.1 = .ok (p.2, s2) := by
  have hts0 : table_size (empty_default (V := V)) = 5 := rfl
  rw [hts0] at hn
  have hinv0 : Inv (empty_default (V := V)) := Inv_freshState TABLE_SIZES 0 5
  have hbind0 : ∀ (k : Key) (v : V), hasBinding (empty_default (V := V)) k v ↔
      (k, v) ∈ ([] : List (Key × V)) := by
    intro k v
    constructor
    · rintro ⟨q, hq⟩
      have := replicate_get?_eq (n := 5) (a := (Slot.empty : Slot V)) hq
      cases this
    · intro h
      cases h
  obtain ⟨F, s2, hrun, hinv2, hocc2, hbind2, hts2⟩ :=
    roundtrip_aux kvs [] (empty_default (V := V)) (by simpa using hnd)
      (by simp only [List.length_nil, Nat.zero_add]; omega) hinv0 rfl
      (occCount_replicate 5) hbind0
      (Or.inl ⟨by simp, rfl, hts0⟩)
  refine ⟨F, s2, hrun, ?_⟩
  intro p hp
  have hb : hasBinding s2 p.1 p.2 := by
    rw [hbind2 p.1 p.2]
    simpa using hp
  have hocc : occCount s2.array = kvs.length := by simpa using hocc2
  have hcnt2 : s2.count ≠ (table_size s2 : Int) := by
    rw [hinv2.cnt, hocc]
    rcases hts2 with h | h <;> rw [h] <;> omega
  exact getitem_found s2 p.1 p.2 hinv2 hcnt2 hb

/-- Witness for C6 with two distinct keys on the default table. -/
theorem claim_C6_witness :
    ∃ F s2, (∀ fuel, F ≤ fuel →
        run_ops fuel (empty_default (V := Nat))
          (set_ops [(['a'], 0), (['b'], 1)]) = .ok s2) ∧
      ∀ p ∈ [((['a'] : Key), 0), (['b'], 1)],
        ∃ G, ∀ g, G ≤ g → getitem g s2 p.1 = .ok (p.2, s2) :=
  claim_C6_roundtrip [(['a'], 0), (['b'], 1)] (by decide) (by decide)

end HashyStepTable
